import Mathlib

/-!
Verification development for the adaptive budget-bounded crawler in
src/backend/scraper/script.py.

Python strings are modelled as lists of unicode scalar values (List Char).
Python dicts with string keys are modelled as insertion-ordered association
lists with key replacement on update, matching dict assignment semantics.
The json.loads function is modelled by an executable fuel-based parser for
the JSON grammar accepted by the Python json module (strict mode), with the
simplifications noted at the parser definitions.  urllib.parse.urlparse,
urlunparse and the derived normalize_url are modelled after CPython 3.11
urllib/parse.py, including the removal of tab, carriage return and newline
characters and the ValueError raised on a netloc with mismatched square
brackets.  External effects (HTTP fetch, the Gemini oracle, sleeping) are
modelled as explicit function parameters; the crawl loop is a fuel-based
function over an explicit state.
-/

/-- A Python string: a finite sequence of unicode scalar values. -/
abbrev PyStr := List Char

/-- Characters treated as whitespace by the Python str.strip method
(the ASCII whitespace characters; exotic unicode spaces are not used by
the program and are not modelled). -/
def pyIsSpace (c : Char) : Bool :=
  c == ' ' || c == '\t' || c == '\n' || c == '\r' || c == '\x0b' || c == '\x0c'

/-- Python str.strip with no arguments: remove leading and trailing
whitespace. -/
def pyStrip (s : PyStr) : PyStr :=
  ((s.dropWhile pyIsSpace).reverse.dropWhile pyIsSpace).reverse

/-- Python str.removeprefix: drop the given leading substring when present,
otherwise return the string unchanged. -/
def stripPre (s pre : PyStr) : PyStr :=
  if pre.isPrefixOf s then s.drop pre.length else s

/-- Python str.removesuffix: drop the given trailing substring when present,
otherwise return the string unchanged. -/
def stripSuf (s suf : PyStr) : PyStr :=
  if suf.isSuffixOf s then s.take (s.length - suf.length) else s

/-- The opening curly brace character. -/
def braceOpen : Char := Char.ofNat 123

/-- The closing curly brace character. -/
def braceClose : Char := Char.ofNat 125

/-- The values produced by the Python json module: None, bool, numbers
(kept as mantissa times a power of ten; the int versus float distinction
only matters for truthiness, where both are falsy exactly at zero),
str, list, dict, plus the json module extensions Infinity and NaN. -/
inductive Json where
  | null : Json
  | bool : Bool → Json
  | num : Int → Int → Json
  | str : PyStr → Json
  | arr : List Json → Json
  | obj : List (PyStr × Json) → Json
  | inf : Bool → Json
  | nan : Json

/-- Python truthiness of a json.loads value: None, 0, empty string, empty
list and empty dict are falsy, everything else is truthy. -/
def truthy : Json → Bool
  | .null => false
  | .bool b => b
  | .num m _ => m != 0
  | .str s => !s.isEmpty
  | .arr l => !l.isEmpty
  | .obj d => !d.isEmpty
  | .inf _ => true
  | .nan => true

/-- A Python dict with string keys, as an insertion-ordered association
list whose keys are unique. -/
abbrev PyDict := List (PyStr × Json)

/-- Python dict key lookup. -/
def dictLookup (d : PyDict) (k : PyStr) : Option Json :=
  match d with
  | [] => none
  | (k1, v) :: rest => if k1 = k then some v else dictLookup rest k

/-- Python dict assignment d[k] = v: replace the value at an existing key
in place, otherwise append the new binding. -/
def dictInsert (d : PyDict) (k : PyStr) (v : Json) : PyDict :=
  match d with
  | [] => [(k, v)]
  | (k1, v1) :: rest =>
      if k1 = k then (k1, v) :: rest else (k1, v1) :: dictInsert rest k v

/-- Whitespace accepted by the Python json parser between tokens. -/
def jsonWs (c : Char) : Bool :=
  c == ' ' || c == '\t' || c == '\n' || c == '\r'

/-- Skip json whitespace. -/
def skipWs (s : PyStr) : PyStr := s.dropWhile jsonWs

/-- Value of a hexadecimal digit. -/
def hexVal (c : Char) : Option Nat :=
  if c.isDigit then some (c.toNat - 48)
  else if 'a' ≤ c && c ≤ 'f' then some (c.toNat - 87)
  else if 'A' ≤ c && c ≤ 'F' then some (c.toNat - 55)
  else none

/-- Body of a JSON string after the opening quote, in strict mode: bare
control characters are rejected, the standard escapes are interpreted, and
a unicode escape becomes the corresponding scalar value (surrogate pairing
is not modelled; the program never feeds surrogate escapes).  Returns the
decoded text and the remainder after the closing quote. -/
def parseStrAux : Nat → PyStr → PyStr → Option (PyStr × PyStr)
  | 0, _, _ => none
  | Nat.succ fuel, acc, s =>
    match s with
    | [] => none
    | c :: rest =>
      if c = '"' then some (acc.reverse, rest)
      else if c = '\\' then
        match rest with
        | [] => none
        | e :: rest2 =>
          if e = '"' then parseStrAux fuel ('"' :: acc) rest2
          else if e = '\\' then parseStrAux fuel ('\\' :: acc) rest2
          else if e = '/' then parseStrAux fuel ('/' :: acc) rest2
          else if e = 'b' then parseStrAux fuel ('\x08' :: acc) rest2
          else if e = 'f' then parseStrAux fuel ('\x0c' :: acc) rest2
          else if e = 'n' then parseStrAux fuel ('\n' :: acc) rest2
          else if e = 'r' then parseStrAux fuel ('\r' :: acc) rest2
          else if e = 't' then parseStrAux fuel ('\t' :: acc) rest2
          else if e = 'u' then
            match rest2 with
            | h1 :: h2 :: h3 :: h4 :: rest3 =>
              match hexVal h1, hexVal h2, hexVal h3, hexVal h4 with
              | some a, some b, some c2, some d2 =>
                  parseStrAux fuel (Char.ofNat (((a * 16 + b) * 16 + c2) * 16 + d2) :: acc) rest3
              | _, _, _, _ => none
            | _ => none
          else none
      else if c.toNat < 32 then none
      else parseStrAux fuel (c :: acc) rest

/-- Numeric value of a digit string. -/
def digitsNat (l : List Char) : Nat :=
  l.foldl (fun a c => a * 10 + (c.toNat - 48)) 0

/-- JSON number parsing following the regular expression used by the Python
json module: an optional minus sign, an integer part that is a single zero
or starts with a nonzero digit, an optional fraction and an optional
exponent, each matched greedily and independently. -/
def parseNum (s : PyStr) : Option (Json × PyStr) :=
  let signed := match s with
    | '-' :: r => (true, r)
    | _ => (false, s)
  match signed.2 with
  | [] => none
  | c :: _ =>
    if !c.isDigit then none
    else
      let ip := if c = '0' then (['0'], (signed.2).tail)
                else ((signed.2).takeWhile Char.isDigit, (signed.2).dropWhile Char.isDigit)
      let fp := match ip.2 with
        | '.' :: r =>
            if (r.takeWhile Char.isDigit).isEmpty then (([] : List Char), ip.2)
            else (r.takeWhile Char.isDigit, r.dropWhile Char.isDigit)
        | _ => (([] : List Char), ip.2)
      let ep : Int × PyStr := match fp.2 with
        | e :: r =>
            if e = 'e' || e = 'E' then
              let sr : Int × PyStr := match r with
                | '+' :: rr => (1, rr)
                | '-' :: rr => (-1, rr)
                | _ => (1, r)
              if (sr.2.takeWhile Char.isDigit).isEmpty then ((0 : Int), fp.2)
              else (sr.1 * Int.ofNat (digitsNat (sr.2.takeWhile Char.isDigit)),
                    sr.2.dropWhile Char.isDigit)
            else ((0 : Int), fp.2)
        | [] => ((0 : Int), fp.2)
      let mant := Int.ofNat (digitsNat (ip.1 ++ fp.1))
      some (Json.num (if signed.1 then -mant else mant)
                     (ep.1 - Int.ofNat fp.1.length), ep.2)

/-- Member list of a JSON object, entered at the position of a key, with
the Python json strictness rules: a key must be a quoted string, a colon
separates key and value, members are separated by commas, and a trailing
comma is rejected.  Duplicate keys follow dict semantics: the last value
wins.  Parameterised by the value parser to tie the recursion through
fuel. -/
def parseItemsAux (pv : PyStr → Option (Json × PyStr)) :
    Nat → PyDict → PyStr → Option (PyDict × PyStr)
  | 0, _, _ => none
  | Nat.succ fuel, acc, s =>
    match s with
    | [] => none
    | q :: rest =>
      if q ≠ '"' then none
      else
        match parseStrAux (rest.length + 1) [] rest with
        | none => none
        | some (key, r1) =>
          match skipWs r1 with
          | ':' :: r3 =>
            match pv (skipWs r3) with
            | none => none
            | some (v, r4) =>
              let acc2 := dictInsert acc key v
              match skipWs r4 with
              | c :: r6 =>
                  if c = braceClose then some (acc2, r6)
                  else if c = ',' then parseItemsAux pv fuel acc2 (skipWs r6)
                  else none
              | [] => none
          | _ => none

/-- Element list of a JSON array, entered at the position of a value. -/
def parseElemsAux (pv : PyStr → Option (Json × PyStr)) :
    Nat → List Json → PyStr → Option (List Json × PyStr)
  | 0, _, _ => none
  | Nat.succ fuel, acc, s =>
    match pv s with
    | none => none
    | some (v, r1) =>
      match skipWs r1 with
      | c :: r2 =>
          if c = ']' then some (acc ++ [v], r2)
          else if c = ',' then parseElemsAux pv fuel (acc ++ [v]) (skipWs r2)
          else none
      | [] => none

/-- One JSON value at the head of the input, as accepted by the Python json
scanner: a string, object, array, the null, true and false literals, the
json module extensions NaN, Infinity and -Infinity, or a number.
Surrounding whitespace is consumed by the callers, as in the Python
implementation. -/
def parseVal : Nat → PyStr → Option (Json × PyStr)
  | 0, _ => none
  | Nat.succ fuel, s0 =>
    match s0 with
    | [] => none
    | c :: rest =>
      if c = '"' then
        match parseStrAux (rest.length + 1) [] rest with
        | some (t, r) => some (.str t, r)
        | none => none
      else if c = braceOpen then
        match skipWs rest with
        | c1 :: r1 =>
            if c1 = braceClose then some (.obj [], r1)
            else
              match parseItemsAux (parseVal fuel) fuel [] (skipWs rest) with
              | some (d, r2) => some (.obj d, r2)
              | none => none
        | [] => none
      else if c = '[' then
        match skipWs rest with
        | c1 :: r1 =>
            if c1 = ']' then some (.arr [], r1)
            else
              match parseElemsAux (parseVal fuel) fuel [] (skipWs rest) with
              | some (l, r2) => some (.arr l, r2)
              | none => none
        | [] => none
      else if s0.take 4 = ("null".toList) then some (.null, s0.drop 4)
      else if s0.take 4 = ("true".toList) then some (.bool true, s0.drop 4)
      else if s0.take 5 = ("false".toList) then some (.bool false, s0.drop 5)
      else if s0.take 3 = ("NaN".toList) then some (.nan, s0.drop 3)
      else if s0.take 8 = ("Infinity".toList) then some (.inf true, s0.drop 8)
      else if s0.take 9 = ("-Infinity".toList) then some (.inf false, s0.drop 9)
      else parseNum s0

/-- Python json.loads: skip leading whitespace, parse one value, and demand
that only whitespace remains. -/
def pyLoads (s : PyStr) : Option Json :=
  match parseVal (s.length + 1) (skipWs s) with
  | some (v, rest) => if skipWs rest = [] then some v else none
  | none => none

/-- The cleanup applied by update_output before parsing, from script.py
line 188: strip, remove a leading markdown fence tagged json, remove a
trailing fence, strip again. -/
def cleaned (s : PyStr) : PyStr :=
  pyStrip (stripSuf (stripPre (pyStrip s) ("```json".toList)) ("```".toList))

/-- The merge loop of update_output, script.py lines 190 to 192: for each
key and value of the parsed response, write the value when the key is
absent from the accumulated output or its current value is falsy. -/
def mergeItems (output : PyDict) : List (PyStr × Json) → PyDict
  | [] => output
  | (k, v) :: rest =>
    match dictLookup output k with
    | none => mergeItems (dictInsert output k v) rest
    | some w =>
        if truthy w then mergeItems output rest
        else mergeItems (dictInsert output k v) rest

/-- update_output from script.py lines 184 to 196: clean the response,
parse it with json.loads and merge the items of the resulting dict into
the accumulated output; any failure, including a parsed value that is not
a dict, is caught and leaves the output unchanged. -/
def update_output (output : PyDict) (gemini_json : PyStr) : PyDict :=
  match pyLoads (cleaned gemini_json) with
  | some (Json.obj items) => mergeItems output items
  | _ => output

/-- REQUIRED_FIELDS from script.py lines 58 to 62.  The source is a Python
set; it is kept here as a list, which is equivalent for the universally
quantified completeness check. -/
def REQUIRED_FIELDS : List PyStr :=
  [("logo".toList), ("name".toList), ("company description".toList),
   ("summary".toList), ("status".toList), ("website url".toList),
   ("founding year".toList), ("startup category".toList),
   ("founding team size".toList), ("magic accredited".toList),
   ("employees".toList), ("location".toList), ("founder".toList)]

/-- The completeness check of script.py line 199, generalised over the
field list: every field must be a key of the output with a truthy value. -/
def is_complete_over (fields : List PyStr) (output : PyDict) : Bool :=
  fields.all (fun k =>
    match dictLookup output k with
    | some v => truthy v
    | none => false)

/-- is_output_complete from script.py lines 198 to 199, over the built-in
REQUIRED_FIELDS. -/
def is_output_complete (output : PyDict) : Bool :=
  is_complete_over REQUIRED_FIELDS output

/-- The thirteen field names requested by the prompt that
gemini_extract_fields builds, script.py lines 136 to 163: the keys of the
JSON template embedded in the prompt text. -/
def PROMPT_FIELDS : List PyStr :=
  [("logo".toList), ("name".toList), ("company_description".toList),
   ("summary".toList), ("status".toList), ("website_url".toList),
   ("founding_year".toList), ("startup_category".toList),
   ("founding_team_size".toList), ("magic_accredited".toList),
   ("employees".toList), ("location".toList), ("founder".toList)]

/-- Keys of the dict that update_output would merge for a given response
string: the keys of the parsed object, or nothing when parsing fails or
yields a non-dict. -/
def respKeys (r : PyStr) : List PyStr :=
  match pyLoads (cleaned r) with
  | some (Json.obj items) => items.map Prod.fst
  | _ => []

/-- The satisfaction condition exactly as claim C2 words it: the field is
present and its value is not the empty string, not the empty list and not
null. -/
def claimFieldOk (output : PyDict) (k : PyStr) : Bool :=
  match dictLookup output k with
  | none => false
  | some .null => false
  | some (.str []) => false
  | some (.arr []) => false
  | some _ => true

/-- Completeness as claim C2 words it. -/
def claimComplete (fields : List PyStr) (output : PyDict) : Bool :=
  fields.all (claimFieldOk output)

/-- The C0 control characters and the space, stripped from the front of a
URL by urlsplit (the WHATWG rule adopted by CPython). -/
def c0OrSpace (c : Char) : Bool := c.toNat ≤ 32

/-- The characters removed from a URL everywhere by urlsplit before
parsing: tab, carriage return, newline. -/
def urlUnsafe (c : Char) : Bool := c == '\t' || c == '\r' || c == '\n'

/-- Characters allowed in a URL scheme, from urllib.parse scheme_chars:
ASCII letters and digits, plus sign, minus sign and dot. -/
def isSchemeChar (c : Char) : Bool :=
  c.isAlpha || c.isDigit || c == '+' || c == '-' || c == '.'

/-- Python str.lower restricted to the ASCII letters, which is all the
scheme splitter ever lowercases.  Char.toLower is exactly this map. -/
def pyLower (c : Char) : Char := c.toLower

/-- The urlsplit scheme test, CPython 3.11: there is a colon, it is not the
first character, the first character is an ASCII letter, and every
character before the colon is a scheme character. -/
def schemeGuard (url : PyStr) : Bool :=
  decide (':' ∈ url) && !(url.takeWhile (fun c => c != ':')).isEmpty &&
    (match url with
     | c :: _ => c.isAlpha
     | [] => false) &&
    (url.takeWhile (fun c => c != ':')).all isSchemeChar

/-- Scheme extraction: when the guard holds, the part before the first
colon is the scheme, lowercased, and parsing continues after the colon. -/
def schemeSplit (url : PyStr) : PyStr × PyStr :=
  if schemeGuard url then
    ((url.takeWhile (fun c => c != ':')).map pyLower,
     (url.dropWhile (fun c => c != ':')).tail)
  else ([], url)

/-- Delimiters that end the netloc in _splitnetloc. -/
def netlocDelim (c : Char) : Bool := c == '/' || c == '?' || c == '#'

/-- Netloc extraction: when the remaining URL starts with two slashes, the
netloc runs to the first slash, question mark or hash after them. -/
def netlocSplit (url : PyStr) : PyStr × PyStr :=
  if url.take 2 = ['/', '/'] then
    ((url.drop 2).takeWhile (fun c => !netlocDelim c),
     (url.drop 2).dropWhile (fun c => !netlocDelim c))
  else ([], url)

/-- The mismatched-bracket condition on which urlsplit raises
ValueError Invalid IPv6 URL. -/
def badBrackets (netloc : PyStr) : Bool :=
  (decide ('[' ∈ netloc) && !decide (']' ∈ netloc)) ||
    (decide (']' ∈ netloc) && !decide ('[' ∈ netloc))

/-- Fragment split: everything after the first hash, when there is one. -/
def fragSplit (url : PyStr) : PyStr × PyStr :=
  if '#' ∈ url then
    (url.takeWhile (fun c => c != '#'), (url.dropWhile (fun c => c != '#')).tail)
  else (url, [])

/-- Query split: everything after the first question mark, when there is
one.  Applied after the fragment split, as in urlsplit. -/
def querySplit (url : PyStr) : PyStr × PyStr :=
  if '?' ∈ url then
    (url.takeWhile (fun c => c != '?'), (url.dropWhile (fun c => c != '?')).tail)
  else (url, [])

/-- The five components produced by urlsplit. -/
structure SplitResult where
  scheme : PyStr
  netloc : PyStr
  path : PyStr
  query : PyStr
  fragment : PyStr

/-- urlsplit without the bracket validation: strip leading control
characters and spaces, remove unsafe characters everywhere, then split off
scheme, netloc, fragment and query in that order. -/
def urlsplitRaw (url0 : PyStr) : SplitResult :=
  let url1 := (url0.dropWhile c0OrSpace).filter (fun c => !urlUnsafe c)
  let sp := schemeSplit url1
  let np := netlocSplit sp.2
  let fp := fragSplit np.2
  let qp := querySplit fp.1
  ⟨sp.1, np.1, qp.1, qp.2, fp.2⟩

/-- urlsplit, CPython 3.11: as urlsplitRaw, except that a netloc with a
square bracket on only one side raises ValueError Invalid IPv6 URL.  The
further validations of CPython on netlocs that are not plain ASCII host
names (the bracketed-host IPv6 and IPvFuture syntax check and the NFKC
check for non-ASCII netlocs, both of which can also raise) are outside the
modelled fragment; every netloc the program meets is a plain host name. -/
def urlsplit (url : PyStr) : Except Unit SplitResult :=
  let r := urlsplitRaw url
  if badBrackets r.netloc then .error () else .ok r

/-- The _splitparams helper of urlparse: when the path has a slash, the
parameters start at the first semicolon at or after the last slash; when
it has no slash, at the first semicolon.  The caller guarantees that a
semicolon is present in the second case it uses. -/
def splitparams (url : PyStr) : PyStr × PyStr :=
  if '/' ∈ url then
    let seg := (url.reverse.takeWhile (fun c => c != '/')).reverse
    if ';' ∈ seg then
      (url.take (url.length - seg.length) ++ seg.takeWhile (fun c => c != ';'),
       (seg.dropWhile (fun c => c != ';')).tail)
    else (url, [])
  else (url.takeWhile (fun c => c != ';'), (url.dropWhile (fun c => c != ';')).tail)

/-- Parameter extraction as urlparse applies it to the path returned by
urlsplit: only when the path has a semicolon. -/
def pathParams (path : PyStr) : PyStr × PyStr :=
  if ';' ∈ path then splitparams path else (path, [])

/-- The six components produced by urlparse. -/
structure ParseResult where
  scheme : PyStr
  netloc : PyStr
  path : PyStr
  params : PyStr
  query : PyStr
  fragment : PyStr

/-- The uses_params list of urllib.parse: the schemes for which urlparse
separates parameters from the path. -/
def usesParamsList : List PyStr :=
  [([]), ("ftp".toList), ("hdl".toList), ("prospero".toList),
   ("http".toList), ("imap".toList), ("https".toList), ("shttp".toList),
   ("rtsp".toList), ("rtsps".toList), ("rtspu".toList), ("sip".toList),
   ("sips".toList), ("mms".toList), ("sftp".toList), ("tel".toList)]

/-- The uses_netloc list of urllib.parse: the schemes for which urlunsplit
re-emits a double slash even when the netloc is empty. -/
def usesNetlocList : List PyStr :=
  [([]), ("ftp".toList), ("http".toList), ("gopher".toList),
   ("nntp".toList), ("telnet".toList), ("imap".toList), ("wais".toList),
   ("file".toList), ("mms".toList), ("https".toList), ("shttp".toList),
   ("snews".toList), ("prospero".toList), ("rtsp".toList),
   ("rtsps".toList), ("rtspu".toList), ("rsync".toList), ("svn".toList),
   ("svn+ssh".toList), ("sftp".toList), ("nfs".toList), ("git".toList),
   ("git+ssh".toList), ("ws".toList), ("wss".toList)]

/-- urlparse: urlsplit followed by the parameter split on the path, which
is applied only for schemes in uses_params. -/
def urlparse (url : PyStr) : Except Unit ParseResult :=
  match urlsplit url with
  | .error e => .error e
  | .ok r =>
      if r.scheme ∈ usesParamsList then
        .ok ⟨r.scheme, r.netloc, (pathParams r.path).1, (pathParams r.path).2,
             r.query, r.fragment⟩
      else .ok ⟨r.scheme, r.netloc, r.path, [], r.query, r.fragment⟩

/-- The condition under which urlunsplit emits a double slash: a nonempty
netloc, or a scheme in uses_netloc with a path that does not already start
with two slashes. -/
def unsplitSlashes (scheme netloc url : PyStr) : Bool :=
  !netloc.isEmpty ||
    (!scheme.isEmpty && decide (scheme ∈ usesNetlocList) &&
      !decide (url.take 2 = ['/', '/']))

/-- The slash inserted by urlunsplit between a netloc and a path that does
not start with a slash. -/
def unsplitAdjust (url : PyStr) : PyStr :=
  if !url.isEmpty && url.take 1 ≠ ['/'] then '/' :: url else url

/-- urlunsplit, CPython 3.11: reassemble scheme, netloc, path, query and
fragment. -/
def urlunsplit (scheme netloc url query fragment : PyStr) : PyStr :=
  let u1 :=
    if unsplitSlashes scheme netloc url then
      ['/', '/'] ++ netloc ++ unsplitAdjust url
    else url
  let u2 := if !scheme.isEmpty then scheme ++ ':' :: u1 else u1
  let u3 := if !query.isEmpty then u2 ++ '?' :: query else u2
  if !fragment.isEmpty then u3 ++ '#' :: fragment else u3

/-- urlunparse: parameters are appended to the path after a semicolon when
present, then urlunsplit reassembles. -/
def urlunparse (scheme netloc url params query fragment : PyStr) : PyStr :=
  urlunsplit scheme netloc
    (if !params.isEmpty then url ++ ';' :: params else url) query fragment

/-- Python path.rstrip with a slash argument: remove trailing slashes. -/
def rstripSlash (p : PyStr) : PyStr :=
  (p.reverse.dropWhile (fun c => c == '/')).reverse

/-- normalize_url from script.py lines 68 to 71: parse the URL, strip
trailing slashes from the path, and reassemble scheme, netloc and the
cleaned path with empty params, query and fragment.  The Except models the
ValueError that urlparse can raise. -/
def normalize_url (url : PyStr) : Except Unit PyStr :=
  match urlparse url with
  | .error e => .error e
  | .ok parts =>
      .ok (urlunparse parts.scheme parts.netloc (rstripSlash parts.path)
            [] [] [])

/-- The data of one fetched page that crawl_until_complete consumes: the
cleaned text and the outbound links (already canonicalized, as
extract_links produces them). -/
structure PageData where
  text : PyStr
  links : List PyStr

/-- The state of the crawl loop in crawl_until_complete: the accumulated
output, the processed pages in order with their depths (the source keeps
only the set of their URLs, recovered here as the first projections), the
frontier queue and the page counter. -/
structure CrawlState where
  output : PyDict
  trace : List (PyStr × Nat)
  queue : List (PyStr × Nat)
  page_count : Nat

/-- The terminal states named by the specification, decided from the loop
state at exit: completion wins, then frontier exhaustion, then the page
budget. -/
inductive TermState where
  | Completed : TermState
  | Exhausted : TermState
  | BudgetExceeded : TermState
deriving DecidableEq

/-- Classify the state at which the crawl loop stopped. -/
def termState (st : CrawlState) : TermState :=
  if is_output_complete st.output then .Completed
  else if st.queue = [] then .Exhausted
  else .BudgetExceeded

/-- The loop body of crawl_until_complete, script.py lines 209 to 230,
with the two external effects as function parameters: fetchFn models
scrape_page (none is a failed or non-HTML fetch) and geminiFn models
gemini_extract_fields (none is an oracle failure).  Each recursive call
consumes one unit of fuel; none is returned when fuel runs out, which the
source cannot do because its queue is finite.  The politeness sleep has no
observable effect in the model. -/
def crawlLoop (maxPages maxDepth : Nat) (fetchFn : PyStr → Option PageData)
    (geminiFn : PyStr → List PyStr → Option PyStr) :
    Nat → CrawlState → Option CrawlState
  | 0, _ => none
  | Nat.succ fuel, st =>
    if st.queue = [] ∨ maxPages ≤ st.page_count ∨
        is_output_complete st.output = true then some st
    else
      match st.queue with
      | [] => some st
      | (url, depth) :: rest =>
        if url ∈ st.trace.map Prod.fst ∨ maxDepth < depth then
          crawlLoop maxPages maxDepth fetchFn geminiFn fuel
            { st with queue := rest }
        else
          match fetchFn url with
          | none =>
              crawlLoop maxPages maxDepth fetchFn geminiFn fuel
                { st with trace := st.trace ++ [(url, depth)], queue := rest }
          | some page =>
              let out2 :=
                match geminiFn page.text page.links with
                | some resp => if resp = [] then st.output
                               else update_output st.output resp
                | none => st.output
              let trace2 := st.trace ++ [(url, depth)]
              crawlLoop maxPages maxDepth fetchFn geminiFn fuel
                { output := out2,
                  trace := trace2,
                  queue := rest ++
                    (page.links.filter
                      (fun l => decide (l ∉ trace2.map Prod.fst))).map
                      (fun l => (l, depth + 1)),
                  page_count := st.page_count + 1 }

/-- crawl_until_complete, script.py lines 201 to 235: reset the output,
seed the queue with the normalized start URL at depth zero and run the
loop.  An error of normalize_url propagates, as the uncaught ValueError
would. -/
def crawl_until_complete (maxPages maxDepth : Nat)
    (fetchFn : PyStr → Option PageData)
    (geminiFn : PyStr → List PyStr → Option PyStr)
    (fuel : Nat) (start : PyStr) : Except Unit (Option CrawlState) :=
  match normalize_url start with
  | .error e => .error e
  | .ok s => .ok (crawlLoop maxPages maxDepth fetchFn geminiFn fuel
      { output := [], trace := [], queue := [(s, 0)], page_count := 0 })

/-- The number of processed pages whose fetch succeeded. -/
def succCount (fetchFn : PyStr → Option PageData)
    (trace : List (PyStr × Nat)) : Nat :=
  (trace.filter (fun e => (fetchFn e.1).isSome)).length

/-- The loop invariant of crawl_until_complete: processed depths and queued
depths are non-decreasing, every queued depth is at least every processed
depth, queued depths exceed the front depth by at most one, no URL is
processed twice, and the page counter counts exactly the processed pages
whose fetch succeeded, never beyond the budget. -/
structure CrawlInv (maxPages : Nat) (fetchFn : PyStr → Option PageData)
    (st : CrawlState) : Prop where
  traceSorted : List.Sorted (· ≤ ·) (st.trace.map Prod.snd)
  queueSorted : List.Sorted (· ≤ ·) (st.queue.map Prod.snd)
  traceQueue : ∀ x ∈ st.trace.map Prod.snd, ∀ y ∈ st.queue.map Prod.snd, x ≤ y
  queueWindow : ∀ y0 ∈ (st.queue.map Prod.snd).head?,
    ∀ y ∈ st.queue.map Prod.snd, y ≤ y0 + 1
  traceNodup : (st.trace.map Prod.fst).Nodup
  countEq : st.page_count = succCount fetchFn st.trace
  countLe : st.page_count ≤ maxPages

/-- The well-formedness facts that hold of the scheme, netloc and cleaned
path of every successful urlparse, and that drive the reparse of the
string normalize_url produces. -/
structure UrlWF (s n p : PyStr) : Prop where
  schemeChars : s.all isSchemeChar = true
  schemeLower : s.map pyLower = s
  schemeAlpha : ∀ c, s.head? = some c → c.isAlpha = true
  netlocClean : n.all (fun c => !netlocDelim c) = true
  netlocSafe : n.all (fun c => !urlUnsafe c) = true
  pathSafe : p.all (fun c => !urlUnsafe c) = true
  pathHead : s = [] → n = [] → ∀ c, p.head? = some c → c0OrSpace c = false
  pathClean : p.all (fun c => !(c == '?' || c == '#')) = true
  pathSlash : n ≠ [] → p = [] ∨ p.head? = some '/'
  pathNoScheme : s = [] → n = [] → schemeGuard p = false

/-- The path as it stands inside the string normalize_url returns: the
trailing-slash-stripped path with the slash urlunsplit may insert. -/
def normAdjustedPath (parts : ParseResult) : PyStr :=
  if unsplitSlashes parts.scheme parts.netloc (rstripSlash parts.path) then
    unsplitAdjust (rstripSlash parts.path)
  else rstripSlash parts.path

/-- A three-page site for exercising the page budget: the seed links to a
page whose fetch fails and to two ordinary pages. -/
def cFetch : PyStr → Option PageData := fun u =>
  if u = "http://s".toList then
    some ⟨[], ["http://s/f".toList, "http://s/a".toList, "http://s/b".toList]⟩
  else if u = "http://s/f".toList then none
  else some ⟨[], []⟩

/-- An oracle that always fails, so the schema is never satisfied. -/
def cGemini : PyStr → List PyStr → Option PyStr := fun _ _ => none

/-- A one-page site whose single page has no links. -/
def wFetch : PyStr → Option PageData := fun u =>
  if u = "http://w".toList then some ⟨[], []⟩ else none

/-- An oracle that always fails. -/
def wGemini : PyStr → List PyStr → Option PyStr := fun _ _ => none


theorem dictLookup_insert_self (d : PyDict) (k : PyStr) (v : Json) :
    dictLookup (dictInsert d k v) k = some v := by
  induction d with
  | nil => simp [dictInsert, dictLookup]
  | cons hd tl ih =>
    obtain ⟨k1, v1⟩ := hd
    by_cases h : k1 = k
    · simp [dictInsert, dictLookup, h]
    · simp only [dictInsert, if_neg h, dictLookup, ih]

theorem dictLookup_insert_other (d : PyDict) (k k1 : PyStr) (v : Json)
    (h : k1 ≠ k) : dictLookup (dictInsert d k1 v) k = dictLookup d k := by
  induction d with
  | nil => simp [dictInsert, dictLookup, h]
  | cons hd tl ih =>
    obtain ⟨k2, v2⟩ := hd
    by_cases h2 : k2 = k1
    · subst h2
      simp only [dictInsert, if_pos rfl, dictLookup]
      rw [if_neg h, if_neg h]
    · simp only [dictInsert, if_neg h2, dictLookup]
      by_cases h3 : k2 = k
      · rw [if_pos h3, if_pos h3]
      · rw [if_neg h3, if_neg h3]
        exact ih

theorem dictLookup_eq_none_of_not_mem (d : PyDict) (k : PyStr)
    (h : k ∉ d.map Prod.fst) : dictLookup d k = none := by
  induction d with
  | nil => rfl
  | cons hd tl ih =>
    obtain ⟨k1, v1⟩ := hd
    simp only [List.map_cons, List.mem_cons, not_or] at h
    have h1 : k1 ≠ k := fun he => h.1 he.symm
    simp only [dictLookup, if_neg h1]
    exact ih h.2

theorem dictInsert_keys (d : PyDict) (k k1 : PyStr) (v : Json)
    (h : k ∈ (dictInsert d k1 v).map Prod.fst) :
    k ∈ d.map Prod.fst ∨ k = k1 := by
  induction d with
  | nil =>
    simp [dictInsert] at h
    exact Or.inr h
  | cons hd tl ih =>
    obtain ⟨k2, v2⟩ := hd
    by_cases h2 : k2 = k1
    · simp only [dictInsert, if_pos h2, List.map_cons, List.mem_cons] at h
      simp only [List.map_cons, List.mem_cons]
      tauto
    · simp only [dictInsert, if_neg h2, List.map_cons, List.mem_cons] at h
      simp only [List.map_cons, List.mem_cons]
      rcases h with h | h
      · exact Or.inl (Or.inl h)
      · rcases ih h with h3 | h3
        · exact Or.inl (Or.inr h3)
        · exact Or.inr h3

theorem mergeItems_keys (items : List (PyStr × Json)) (out : PyDict)
    (k : PyStr) (h : k ∈ (mergeItems out items).map Prod.fst) :
    k ∈ out.map Prod.fst ∨ k ∈ items.map Prod.fst := by
  induction items generalizing out with
  | nil => exact Or.inl h
  | cons hd tl ih =>
    obtain ⟨k1, v1⟩ := hd
    simp only [List.map_cons, List.mem_cons]
    rcases h1 : dictLookup out k1 with _ | w
    · simp only [mergeItems, h1] at h
      rcases ih _ h with h2 | h2
      · rcases dictInsert_keys out k k1 v1 h2 with h3 | h3
        · exact Or.inl h3
        · exact Or.inr (Or.inl h3)
      · exact Or.inr (Or.inr h2)
    · by_cases ht : truthy w = true
      · simp only [mergeItems, h1, if_pos ht] at h
        rcases ih _ h with h2 | h2
        · exact Or.inl h2
        · exact Or.inr (Or.inr h2)
      · simp only [mergeItems, h1, if_neg ht] at h
        rcases ih _ h with h2 | h2
        · rcases dictInsert_keys out k k1 v1 h2 with h3 | h3
          · exact Or.inl h3
          · exact Or.inr (Or.inl h3)
        · exact Or.inr (Or.inr h2)

theorem mergeItems_persist (items : List (PyStr × Json)) (out : PyDict)
    (k : PyStr) (v : Json) (h1 : dictLookup out k = some v)
    (h2 : truthy v = true) :
    dictLookup (mergeItems out items) k = some v := by
  induction items generalizing out with
  | nil => exact h1
  | cons hd tl ih =>
    obtain ⟨k1, v1⟩ := hd
    rcases h3 : dictLookup out k1 with _ | w
    · have hne : k1 ≠ k := by
        intro he
        rw [he, h1] at h3
        exact Option.noConfusion h3
      simp only [mergeItems, h3]
      exact ih _ (by rw [dictLookup_insert_other out k k1 v1 hne]; exact h1)
    · by_cases ht : truthy w = true
      · simp only [mergeItems, h3, if_pos ht]
        exact ih _ h1
      · simp only [mergeItems, h3, if_neg ht]
        have hne : k1 ≠ k := by
          intro he
          rw [he, h1] at h3
          injection h3 with h4
          rw [← h4] at ht
          exact ht h2
        exact ih _ (by rw [dictLookup_insert_other out k k1 v1 hne]; exact h1)

theorem mergeItems_lookup_of_not_mem (items : List (PyStr × Json))
    (out : PyDict) (k : PyStr) (h : k ∉ items.map Prod.fst) :
    dictLookup (mergeItems out items) k = dictLookup out k := by
  induction items generalizing out with
  | nil => rfl
  | cons hd tl ih =>
    obtain ⟨k1, v1⟩ := hd
    simp only [List.map_cons, List.mem_cons, not_or] at h
    rcases h3 : dictLookup out k1 with _ | w
    · simp only [mergeItems, h3]
      rw [ih _ h.2, dictLookup_insert_other out k k1 v1 (fun he => h.1 he.symm)]
    · by_cases ht : truthy w = true
      · simp only [mergeItems, h3, if_pos ht]
        exact ih _ h.2
      · simp only [mergeItems, h3, if_neg ht]
        rw [ih _ h.2, dictLookup_insert_other out k k1 v1 (fun he => h.1 he.symm)]

theorem foldl_mergeItems_persist (ds : List (List (PyStr × Json)))
    (out : PyDict) (k : PyStr) (v : Json) (h1 : dictLookup out k = some v)
    (h2 : truthy v = true) :
    dictLookup (ds.foldl mergeItems out) k = some v := by
  induction ds generalizing out with
  | nil => exact h1
  | cons hd tl ih =>
    exact ih (mergeItems out hd) (mergeItems_persist hd out k v h1 h2)

theorem mergeItems_writes (items : List (PyStr × Json)) (out : PyDict)
    (k : PyStr) (v : Json) (hnd : (items.map Prod.fst).Nodup)
    (hmem : (k, v) ∈ items) (habs : dictLookup out k = none) :
    dictLookup (mergeItems out items) k = some v := by
  induction items generalizing out with
  | nil => exact absurd hmem (List.not_mem_nil _)
  | cons hd tl ih =>
    obtain ⟨k1, v1⟩ := hd
    simp only [List.map_cons, List.nodup_cons] at hnd
    rcases List.mem_cons.mp hmem with he | hmem2
    · injection he with he1 he2
      subst he1
      subst he2
      simp only [mergeItems, habs]
      rw [mergeItems_lookup_of_not_mem tl _ k hnd.1]
      exact dictLookup_insert_self out k v
    · have hne : k1 ≠ k := by
        intro he
        subst he
        exact hnd.1 (List.mem_map.mpr ⟨(k1, v), hmem2, rfl⟩)
      rcases h3 : dictLookup out k1 with _ | w
      · simp only [mergeItems, h3]
        exact ih _ hnd.2 hmem2
          (by rw [dictLookup_insert_other out k k1 v1 hne]; exact habs)
      · by_cases ht : truthy w = true
        · simp only [mergeItems, h3, if_pos ht]
          exact ih _ hnd.2 hmem2 habs
        · simp only [mergeItems, h3, if_neg ht]
          exact ih _ hnd.2 hmem2
            (by rw [dictLookup_insert_other out k k1 v1 hne]; exact habs)

theorem update_output_keys (out : PyDict) (r : PyStr) (k : PyStr)
    (h : k ∈ (update_output out r).map Prod.fst) :
    k ∈ out.map Prod.fst ∨ k ∈ respKeys r := by
  rcases h1 : pyLoads (cleaned r) with _ | v
  · simp only [update_output, h1] at h
    exact Or.inl h
  · cases v with
    | obj items =>
        simp only [update_output, h1] at h
        simpa only [respKeys, h1] using mergeItems_keys items out k h
    | null => simp only [update_output, h1] at h; exact Or.inl h
    | bool b => simp only [update_output, h1] at h; exact Or.inl h
    | num m e => simp only [update_output, h1] at h; exact Or.inl h
    | str t => simp only [update_output, h1] at h; exact Or.inl h
    | arr l => simp only [update_output, h1] at h; exact Or.inl h
    | inf b => simp only [update_output, h1] at h; exact Or.inl h
    | nan => simp only [update_output, h1] at h; exact Or.inl h

theorem foldl_update_output_keys (rs : List PyStr) (out : PyDict)
    (k : PyStr) (h : k ∈ (rs.foldl update_output out).map Prod.fst) :
    k ∈ out.map Prod.fst ∨ ∃ r ∈ rs, k ∈ respKeys r := by
  induction rs generalizing out with
  | nil => exact Or.inl h
  | cons hd tl ih =>
    rcases ih (update_output out hd) h with h2 | ⟨r, hr, hk⟩
    · rcases update_output_keys out hd k h2 with h3 | h3
      · exact Or.inl h3
      · exact Or.inr ⟨hd, List.mem_cons_self hd tl, h3⟩
    · exact Or.inr ⟨r, List.mem_cons_of_mem hd hr, hk⟩

/-- Claim C2, counterexample: an accumulated output that maps every
required field to the boolean false satisfies the claimed condition (every
field present with a value that is not the empty string, the empty list or
null) yet is_output_complete returns false, because Python truthiness also
rejects false, zero and empty dicts. -/
theorem is_output_complete_claim_refuted :
    claimComplete REQUIRED_FIELDS
        (REQUIRED_FIELDS.map (fun k => (k, Json.bool false))) = true ∧
      is_output_complete
        (REQUIRED_FIELDS.map (fun k => (k, Json.bool false))) = false := by
  constructor
  · rfl
  · rfl

/-- Claim C2, amended: is_output_complete is true exactly when every
required field is present with a Python-truthy value; beyond the empty
string, the empty list, null and absence, the falsy values false, zero and
the empty dict also leave a field unsatisfied.  The completeness examples
of the specification hold as stated over the field set of name and
summary. -/
theorem is_output_complete_iff_truthy :
    (∀ out : PyDict, is_output_complete out = true ↔
      ∀ k ∈ REQUIRED_FIELDS, ∃ v, dictLookup out k = some v ∧
        truthy v = true) ∧
    is_complete_over [("name".toList), ("summary".toList)]
      [(("name".toList), Json.str ("X".toList))] = false ∧
    is_complete_over [("name".toList), ("summary".toList)]
      [(("name".toList), Json.str ("X".toList)),
       (("summary".toList), Json.str ("Y".toList))] = true ∧
    is_complete_over [("name".toList), ("summary".toList)]
      [(("name".toList), Json.str ("X".toList)),
       (("summary".toList), Json.str [])] = false := by
  refine ⟨?_, rfl, rfl, rfl⟩
  intro out
  rw [is_output_complete, is_complete_over, List.all_eq_true]
  constructor
  · intro h k hk
    have h2 := h k hk
    rcases hl : dictLookup out k with _ | v
    · rw [hl] at h2
      exact absurd h2 (by simp)
    · rw [hl] at h2
      exact ⟨v, rfl, h2⟩
  · intro h k hk
    rcases h k hk with ⟨v, hl, ht⟩
    rw [hl]
    exact ht

/-- Claim C3: with the built-in configuration the Completed state is
unreachable through responses keyed by the prompt schema: folding
update_output over any responses whose parsed keys all come from the
underscored PROMPT_FIELDS leaves is_output_complete false, because the
space-separated REQUIRED_FIELDS entry company description can never be
populated. -/
theorem builtin_schema_unreachable (rs : List PyStr)
    (h : ∀ r ∈ rs, ∀ k ∈ respKeys r, k ∈ PROMPT_FIELDS) :
    is_output_complete (rs.foldl update_output []) = false := by
  have hcd : ("company description".toList) ∈ REQUIRED_FIELDS := by decide
  have hnp : ("company description".toList) ∉ PROMPT_FIELDS := by decide
  have habs : ("company description".toList) ∉
      (rs.foldl update_output []).map Prod.fst := by
    intro hc
    rcases foldl_update_output_keys rs [] _ hc with h2 | ⟨r, hr, hk⟩
    · exact absurd h2 (by simp)
    · exact hnp (h r hr _ hk)
  rw [Bool.eq_false_iff]
  intro ht
  rw [is_output_complete, is_complete_over, List.all_eq_true] at ht
  have h2 := ht _ hcd
  rw [dictLookup_eq_none_of_not_mem _ _ habs] at h2
  exact absurd h2 (by simp)

/-- Claim C3, witness: a concrete response using the prompt key name
satisfies the key hypothesis, and the folded output stays incomplete. -/
theorem builtin_schema_unreachable_witness :
    (∀ r ∈ [("\x7b\"name\": \"X\"\x7d".toList)],
      ∀ k ∈ respKeys r, k ∈ PROMPT_FIELDS) ∧
    is_output_complete
      ([("\x7b\"name\": \"X\"\x7d".toList)].foldl update_output []) = false :=
  ⟨by decide, builtin_schema_unreachable _ (by decide)⟩

/-- Claim C4, counterexample: a parsed response whose only key is bogus,
which belongs neither to the prompt schema nor to REQUIRED_FIELDS, is
nevertheless written into the accumulated output by update_output; no
schema filtering takes place. -/
theorem update_output_keeps_extra_key :
    dictLookup (update_output [] ("\x7b\"bogus\": \"v\"\x7d".toList))
        ("bogus".toList) = some (Json.str ("v".toList)) ∧
      ("bogus".toList) ∉ PROMPT_FIELDS ∧
      ("bogus".toList) ∉ REQUIRED_FIELDS := by
  refine ⟨rfl, by decide, by decide⟩

/-- Claim C4, amended: update_output merges every key of the parsed
response under the first-non-empty-wins rule, without restricting to any
schema: any key of the parsed object that is absent from the accumulated
output, schema or not, ends up in the output with its parsed value. -/
theorem update_output_merges_all_keys (out : PyDict) (s : PyStr)
    (items : List (PyStr × Json)) (k : PyStr) (v : Json)
    (hp : pyLoads (cleaned s) = some (Json.obj items))
    (hnd : (items.map Prod.fst).Nodup) (hmem : (k, v) ∈ items)
    (habs : dictLookup out k = none) :
    dictLookup (update_output out s) k = some v := by
  rw [update_output, hp]
  exact mergeItems_writes items out k v hnd hmem habs

/-- Claim C4, witness: the amended theorem applied to the bogus-key
response over an empty accumulated output. -/
theorem update_output_merges_all_keys_witness :
    dictLookup (update_output [] ("\x7b\"bogus\": \"v\"\x7d".toList))
        ("bogus".toList) = some (Json.str ("v".toList)) :=
  update_output_merges_all_keys [] ("\x7b\"bogus\": \"v\"\x7d".toList)
    [(("bogus".toList), Json.str ("v".toList))] ("bogus".toList)
    (Json.str ("v".toList)) rfl (by decide)
    (List.mem_singleton.mpr rfl) rfl

/-- Claim C5, counterexample: the merge is not first-non-empty-wins as
claimed.  The code's test is `if key not in output or not output[key]` --
Python truthiness -- so a field holding the value false, which is none of
the empty string, the empty list, null or absent, is nevertheless
overwritten by a later merge: with accumulated k mapped to false and
candidate k mapped to the string B, the merge replaces false by B. -/
theorem merge_overwrites_nonempty_false :
    dictLookup (mergeItems [(("k".toList), Json.bool false)]
        [(("k".toList), Json.str ("B".toList))]) ("k".toList) =
      some (Json.str ("B".toList)) ∧
    (Json.bool false ≠ Json.str [] ∧ Json.bool false ≠ Json.arr [] ∧
      Json.bool false ≠ Json.null) :=
  ⟨rfl, fun h => Json.noConfusion h, fun h => Json.noConfusion h,
    fun h => Json.noConfusion h⟩

/-- Claim C5, amended: the merge is first-truthy-wins, not
first-non-empty-wins.  A field holding a Python-truthy value keeps it
across any sequence of merges; a merge changes a field only when that
field was absent or held a falsy value (so the falsy values false and 0
are overwritten even though they are not empty); and the specification
merge example holds. -/
theorem merge_first_truthy_wins :
    (∀ (ds : List (List (PyStr × Json))) (out : PyDict) (k : PyStr)
        (v : Json), dictLookup out k = some v → truthy v = true →
        dictLookup (ds.foldl mergeItems out) k = some v) ∧
    (∀ (out : PyDict) (items : List (PyStr × Json)) (k : PyStr),
        dictLookup (mergeItems out items) k ≠ dictLookup out k →
        dictLookup out k = none ∨
          ∃ w, dictLookup out k = some w ∧ truthy w = false) ∧
    mergeItems [(("name".toList), Json.str ("A".toList))]
        [(("name".toList), Json.str ("B".toList)),
         (("summary".toList), Json.str ("S".toList))] =
      [(("name".toList), Json.str ("A".toList)),
       (("summary".toList), Json.str ("S".toList))] := by
  refine ⟨foldl_mergeItems_persist, ?_, rfl⟩
  intro out items k hne
  rcases hl : dictLookup out k with _ | w
  · exact Or.inl rfl
  · by_cases ht : truthy w = true
    · exact absurd (by rw [mergeItems_persist items out k w hl ht, hl])
        hne
    · exact Or.inr ⟨w, rfl, Bool.eq_false_iff.mpr ht⟩

/-- Claim C5, witness: a truthy accumulated name survives a later merge
that offers a competing value. -/
theorem merge_first_truthy_wins_witness :
    dictLookup
        ([[(("name".toList), Json.str ("B".toList))]].foldl mergeItems
          [(("name".toList), Json.str ("A".toList))]) ("name".toList) =
      some (Json.str ("A".toList)) :=
  merge_first_truthy_wins.1 _ _ _ _ rfl rfl

/-- Claim C10: merging an oracle response is atomic with respect to parse
failure.  For every response string either the cleaned string parses to a
dict and update_output is exactly the merge of its items, or update_output
returns the accumulated output unchanged; a failed or non-dict parse never
writes a partial set of fields. -/
theorem update_output_atomic (out : PyDict) (s : PyStr) :
    (∃ items, pyLoads (cleaned s) = some (Json.obj items) ∧
      update_output out s = mergeItems out items) ∨
    update_output out s = out := by
  rcases h : pyLoads (cleaned s) with _ | v
  · right
    rw [update_output, h]
  · cases v with
    | obj items => exact Or.inl ⟨items, rfl, by rw [update_output, h]⟩
    | null => right; rw [update_output, h]
    | bool b => right; rw [update_output, h]
    | num m e => right; rw [update_output, h]
    | str t => right; rw [update_output, h]
    | arr l => right; rw [update_output, h]
    | inf b => right; rw [update_output, h]
    | nan => right; rw [update_output, h]

theorem head_dropWhile_all (p : α → Bool) (l : List α) :
    (l.dropWhile p).head?.all (fun c => !p c) = true := by
  induction l with
  | nil => rfl
  | cons hd tl ih =>
    rw [List.dropWhile_cons]
    by_cases h : p hd = true
    · rw [if_pos h]
      exact ih
    · rw [if_neg h]
      simp [h]

theorem dropWhile_eq_self_head (p : α → Bool) (l : List α)
    (h : l.head?.all (fun c => !p c) = true) : l.dropWhile p = l := by
  cases l with
  | nil => rfl
  | cons hd tl =>
    simp only [List.head?_cons, Option.all_some, Bool.not_eq_true'] at h
    rw [List.dropWhile_cons, if_neg]
    rw [h]
    exact Bool.false_ne_true

theorem head_of_pre (l m : List α) (h : l <+: m) :
    l = [] ∨ l.head? = m.head? := by
  cases l with
  | nil => exact Or.inl rfl
  | cons hd tl =>
    obtain ⟨t, ht⟩ := h
    right
    rw [← ht]
    rfl

theorem pyStrip_idem (s : PyStr) : pyStrip (pyStrip s) = pyStrip s := by
  have hpre : ((s.dropWhile pyIsSpace).reverse.dropWhile pyIsSpace).reverse
      <+: s.dropWhile pyIsSpace := by
    rw [← List.reverse_suffix]
    simpa using List.dropWhile_suffix (l := (s.dropWhile pyIsSpace).reverse)
      pyIsSpace
  have h1 : (pyStrip s).dropWhile pyIsSpace = pyStrip s := by
    apply dropWhile_eq_self_head
    rcases head_of_pre _ _ hpre with h | h
    · rw [pyStrip, h]
      rfl
    · rw [pyStrip, h]
      exact head_dropWhile_all pyIsSpace s
  rw [pyStrip, h1]
  show ((pyStrip s).reverse.dropWhile pyIsSpace).reverse = pyStrip s
  rw [pyStrip, List.reverse_reverse, List.dropWhile_idempotent]

theorem pyStrip_wrap (s : PyStr) :
    pyStrip (("```json".toList) ++ s ++ ("```".toList)) =
      ("```json".toList) ++ s ++ ("```".toList) := by
  have h1 : (("```json".toList) ++ s ++ ("```".toList)).dropWhile pyIsSpace
      = ("```json".toList) ++ s ++ ("```".toList) := by
    apply dropWhile_eq_self_head
    rfl
  have h2 : (("```json".toList) ++ s ++ ("```".toList)).reverse.dropWhile
      pyIsSpace = (("```json".toList) ++ s ++ ("```".toList)).reverse := by
    apply dropWhile_eq_self_head
    rw [List.reverse_append]
    rfl
  rw [pyStrip, h1, h2, List.reverse_reverse]

theorem cleaned_wrap (s : PyStr) :
    cleaned (("```json".toList) ++ s ++ ("```".toList)) = pyStrip s := by
  rw [cleaned, pyStrip_wrap]
  have h1 : stripPre (("```json".toList) ++ s ++ ("```".toList))
      ("```json".toList) = s ++ ("```".toList) := by
    rw [stripPre, if_pos]
    · rw [List.append_assoc]
      exact List.drop_left _ _
    · exact List.isPrefixOf_iff_prefix.mpr ⟨s ++ ("```".toList),
        by rw [List.append_assoc]⟩
  rw [h1]
  have h2 : stripSuf (s ++ ("```".toList)) ("```".toList) = s := by
    rw [stripSuf, if_pos]
    · have h3 : (s ++ ("```".toList)).length - ("```".toList).length
          = s.length := by
        rw [List.length_append]
        omega
      rw [h3]
      exact List.take_left _ _
    · exact List.isSuffixOf_iff_suffix.mpr ⟨s, rfl⟩
  rw [h2]

/-- Claim C6, counterexample: valid JSON wrapped in a plain markdown fence
without the json language tag is not merged like the unwrapped JSON.  The
cleanup only removes the exact leading fence tagged json, so the leading
plain fence survives, parsing fails, and the response is ignored, while
the unwrapped JSON merges the name field. -/
theorem plain_fence_not_merged :
    update_output [] (("```\n\x7b\"name\": \"X\"\x7d\n```".toList)) = [] ∧
      update_output [] (("\x7b\"name\": \"X\"\x7d".toList)) =
        [(("name".toList), Json.str ("X".toList))] := by
  constructor
  · rfl
  · rfl

/-- Claim C6, amended: resilience holds for the fence form the code
actually strips.  A response equal to valid JSON wrapped in a fence that
opens with three backticks followed by the word json is merged identically
to the bare response, whenever the stripped response itself does not start
with such a fence opening or end with a fence closing; and any response
whose cleaned form fails to parse leaves the accumulated output unchanged
and cannot raise, update_output being total. -/
theorem update_output_fence_resilient :
    (∀ (out : PyDict) (s : PyStr),
      ¬ (("```json".toList) <+: pyStrip s) →
      ¬ (("```".toList) <:+ pyStrip s) →
      update_output out (("```json".toList) ++ s ++ ("```".toList)) =
        update_output out s) ∧
    (∀ (out : PyDict) (s : PyStr), pyLoads (cleaned s) = none →
      update_output out s = out) := by
  constructor
  · intro out s h1 h2
    have hc : cleaned s = pyStrip s := by
      rw [cleaned, stripPre, if_neg, stripSuf, if_neg, pyStrip_idem]
      · intro hc
        exact h2 (List.isSuffixOf_iff_suffix.mp hc)
      · intro hc
        exact h1 (List.isPrefixOf_iff_prefix.mp hc)
    rw [update_output, update_output, cleaned_wrap, hc]
  · intro out s h
    rw [update_output, h]

/-- Claim C6, witness: the amended fence theorem applied at a concrete
JSON object. -/
theorem update_output_fence_resilient_witness :
    update_output []
        (("```json".toList) ++ ("\n\x7b\"a\": 1\x7d\n".toList) ++
          ("```".toList)) =
      update_output [] ("\n\x7b\"a\": 1\x7d\n".toList) :=
  update_output_fence_resilient.1 [] ("\n\x7b\"a\": 1\x7d\n".toList)
    (by decide) (by decide)

/-- Claim C9, counterexample: normalize_url is not total.  On the input
http:// followed by an opening square bracket, urlparse raises ValueError
Invalid IPv6 URL, which propagates out of normalize_url. -/
theorem normalize_url_raises_example :
    normalize_url ("http://[".toList) = .error () := rfl

/-- Claim C9, amended: within the modelled fragment, normalize_url fails
exactly on the inputs whose netloc has a square bracket on only one side,
the condition on which urlsplit raises ValueError; on every other input it
returns a canonical URL string. -/
theorem normalize_url_error_iff_bad_brackets (u : PyStr) :
    normalize_url u = .error () ↔
      badBrackets (urlsplitRaw u).netloc = true := by
  by_cases h : badBrackets (urlsplitRaw u).netloc = true
  · simp [normalize_url, urlparse, urlsplit, h]
  · simp only [normalize_url, urlparse, urlsplit, h, if_false,
      Bool.false_eq_true]
    constructor
    · intro hc
      by_cases h2 : (urlsplitRaw u).scheme ∈ usesParamsList
      · rw [if_pos h2] at hc
        exact Except.noConfusion hc
      · rw [if_neg h2] at hc
        exact Except.noConfusion hc
    · intro hc
      exact hc.elim

theorem toNat_ofNat_valid (n : Nat) (h : n < 55296) :
    (Char.ofNat n).toNat = n := by
  have hv : n.isValidChar := Or.inl h
  rw [Char.ofNat, dif_pos hv]
  exact BitVec.toNat_ofNatLt _ _

theorem char_eq_iff_toNat (c d : Char) : c = d ↔ c.toNat = d.toNat := by
  constructor
  · intro h
    rw [h]
  · intro h
    apply Char.ext
    exact UInt32.ext h

theorem isAlpha_iff_toNat (c : Char) : c.isAlpha = true ↔
    (65 ≤ c.toNat ∧ c.toNat ≤ 90) ∨ (97 ≤ c.toNat ∧ c.toNat ≤ 122) := by
  simp only [Char.isAlpha, Char.isUpper, Char.isLower, Bool.or_eq_true,
    Bool.and_eq_true, decide_eq_true_eq]
  constructor
  · rintro (⟨h1, h2⟩ | ⟨h1, h2⟩)
    · exact Or.inl ⟨h1, h2⟩
    · exact Or.inr ⟨h1, h2⟩
  · rintro (⟨h1, h2⟩ | ⟨h1, h2⟩)
    · exact Or.inl ⟨h1, h2⟩
    · exact Or.inr ⟨h1, h2⟩

theorem isDigit_iff_toNat (c : Char) : c.isDigit = true ↔
    48 ≤ c.toNat ∧ c.toNat ≤ 57 := by
  simp only [Char.isDigit, Bool.and_eq_true, decide_eq_true_eq]
  constructor
  · rintro ⟨h1, h2⟩
    exact ⟨h1, h2⟩
  · rintro ⟨h1, h2⟩
    exact ⟨h1, h2⟩

theorem isSchemeChar_iff_toNat (c : Char) : isSchemeChar c = true ↔
    (65 ≤ c.toNat ∧ c.toNat ≤ 90) ∨ (97 ≤ c.toNat ∧ c.toNat ≤ 122) ∨
    (48 ≤ c.toNat ∧ c.toNat ≤ 57) ∨ c.toNat = 43 ∨ c.toNat = 45 ∨
    c.toNat = 46 := by
  simp only [isSchemeChar, Bool.or_eq_true, beq_iff_eq,
    isAlpha_iff_toNat, isDigit_iff_toNat, char_eq_iff_toNat]
  have h43 : ('+').toNat = 43 := rfl
  have h45 : ('-').toNat = 45 := rfl
  have h46 : ('.').toNat = 46 := rfl
  rw [h43, h45, h46]
  tauto

theorem pyLower_toNat (c : Char) : (pyLower c).toNat =
    if 65 ≤ c.toNat ∧ c.toNat ≤ 90 then c.toNat + 32 else c.toNat := by
  rw [pyLower, Char.toLower]
  by_cases h : 65 ≤ c.toNat ∧ c.toNat ≤ 90
  · rw [if_pos h, if_pos ⟨h.1, h.2⟩, toNat_ofNat_valid _ (by omega)]
  · rw [if_neg h, if_neg (fun hc => h ⟨hc.1, hc.2⟩)]

theorem pyLower_schemeChar (c : Char) (h : isSchemeChar c = true) :
    isSchemeChar (pyLower c) = true := by
  rw [isSchemeChar_iff_toNat] at h ⊢
  rw [pyLower_toNat]
  by_cases h2 : 65 ≤ c.toNat ∧ c.toNat ≤ 90
  · rw [if_pos h2]
    omega
  · rw [if_neg h2]
    exact h

theorem pyLower_idem (c : Char) : pyLower (pyLower c) = pyLower c := by
  have hl := pyLower_toNat c
  by_cases h : 65 ≤ c.toNat ∧ c.toNat ≤ 90
  · rw [if_pos h] at hl
    rw [char_eq_iff_toNat, pyLower_toNat (pyLower c), hl, if_neg (by omega)]
  · rw [if_neg h] at hl
    rw [char_eq_iff_toNat, pyLower_toNat (pyLower c), hl, if_neg h]

theorem pyLower_alpha (c : Char) (h : c.isAlpha = true) :
    (pyLower c).isAlpha = true := by
  rw [isAlpha_iff_toNat] at h ⊢
  rw [pyLower_toNat]
  by_cases h2 : 65 ≤ c.toNat ∧ c.toNat ≤ 90
  · rw [if_pos h2]
    omega
  · rw [if_neg h2]
    exact h

theorem schemeChar_bne_colon (c : Char) (h : isSchemeChar c = true) :
    (c != ':') = true := by
  rw [bne_iff_ne]
  intro he
  subst he
  exact absurd h (by decide)

theorem schemeChar_in_safe_set (c : Char) (h : isSchemeChar c = true) :
    urlUnsafe c = false := by
  rw [isSchemeChar_iff_toNat] at h
  simp only [urlUnsafe, Bool.or_eq_false_iff, beq_eq_false_iff_ne, ne_eq,
    char_eq_iff_toNat]
  have h9 : ('\t').toNat = 9 := rfl
  have h13 : ('\r').toNat = 13 := rfl
  have h10 : ('\n').toNat = 10 := rfl
  rw [h9, h13, h10]
  refine ⟨⟨?_, ?_⟩, ?_⟩ <;> omega

theorem alpha_not_c0 (c : Char) (h : c.isAlpha = true) :
    c0OrSpace c = false := by
  rw [isAlpha_iff_toNat] at h
  simp only [c0OrSpace, decide_eq_false_iff_not]
  omega

theorem slash_facts : netlocDelim '/' = true ∧ urlUnsafe '/' = false ∧
    c0OrSpace '/' = false ∧ isSchemeChar '/' = false := by decide

theorem takeWhile_append_all (q : α → Bool) (l m : List α)
    (h : l.all q = true) :
    (l ++ m).takeWhile q = l ++ m.takeWhile q := by
  induction l with
  | nil => rfl
  | cons hd tl ih =>
    simp only [List.all_cons, Bool.and_eq_true] at h
    simp only [List.cons_append, List.takeWhile_cons, h.1, if_true,
      ih h.2]

theorem dropWhile_append_all (q : α → Bool) (l m : List α)
    (h : l.all q = true) :
    (l ++ m).dropWhile q = m.dropWhile q := by
  induction l with
  | nil => rfl
  | cons hd tl ih =>
    simp only [List.all_cons, Bool.and_eq_true] at h
    simp only [List.cons_append, List.dropWhile_cons, h.1, if_true,
      ih h.2]

theorem takeWhile_eq_nil_head (q : α → Bool) (l : List α)
    (h : l.head?.all (fun c => !q c) = true) : l.takeWhile q = [] := by
  cases l with
  | nil => rfl
  | cons hd tl =>
    simp only [List.head?_cons, Option.all_some, Bool.not_eq_true'] at h
    rw [List.takeWhile_cons, if_neg]
    rw [h]
    exact Bool.false_ne_true

theorem all_of_pre (q : α → Bool) (l m : List α) (h : m <+: l)
    (hall : l.all q = true) : m.all q = true := by
  rw [List.all_eq_true] at hall ⊢
  exact fun x hx => hall x (h.subset hx)

theorem takeWhile_append_colon (l m : List Char) (h : (':') ∈ l) :
    (l ++ m).takeWhile (fun c => c != ':') =
      l.takeWhile (fun c => c != ':') := by
  induction l with
  | nil => exact absurd h (List.not_mem_nil _)
  | cons hd tl ih =>
    by_cases he : hd = ':'
    · subst he
      simp only [List.cons_append, List.takeWhile_cons]
      rw [if_neg (by simp), if_neg (by simp)]
    · have h2 : (':') ∈ tl := by
        rcases List.mem_cons.mp h with h3 | h3
        · exact absurd h3.symm he
        · exact h3
      simp only [List.cons_append, List.takeWhile_cons]
      rw [if_pos (by simp [he]), if_pos (by simp [he]), ih h2]

theorem schemeGuard_head_not_alpha (l : PyStr)
    (h : ∀ c, l.head? = some c → c.isAlpha = false) :
    schemeGuard l = false := by
  cases l with
  | nil => rfl
  | cons hd tl =>
    have h2 := h hd rfl
    simp only [schemeGuard, h2]
    simp

theorem schemeGuard_append_colon (hd : Char) (tl t : List Char)
    (hc : (':') ∈ hd :: tl) :
    schemeGuard ((hd :: tl) ++ t) = schemeGuard (hd :: tl) := by
  have htw := takeWhile_append_colon (hd :: tl) t hc
  simp only [List.cons_append] at htw
  have hm : (':') ∈ hd :: (tl ++ t) := by
    rw [← List.cons_append]
    exact List.mem_append_left _ hc
  simp only [schemeGuard, List.cons_append, htw, decide_eq_true hm,
    decide_eq_true hc]

theorem schemeGuard_pre_false (l l2 : PyStr) (h : schemeGuard l = false)
    (hp : l2 <+: l) : schemeGuard l2 = false := by
  by_cases hc : (':') ∈ l2
  · obtain ⟨t, rfl⟩ := hp
    cases l2 with
    | nil => exact absurd hc (List.not_mem_nil _)
    | cons hd tl =>
      rw [schemeGuard_append_colon hd tl t hc] at h
      exact h
  · simp [schemeGuard, hc]

theorem schemeSplit_concat (s rest : PyStr) (hne : s ≠ [])
    (h1 : s.all isSchemeChar = true) (h2 : s.map pyLower = s)
    (h3 : ∀ c, s.head? = some c → c.isAlpha = true) :
    schemeSplit (s ++ ':' :: rest) = (s, rest) := by
  have hall : s.all (fun c => c != ':') = true := by
    rw [List.all_eq_true] at h1 ⊢
    exact fun c hcm => schemeChar_bne_colon c (h1 c hcm)
  have htw : (s ++ ':' :: rest).takeWhile (fun c => c != ':') = s := by
    rw [takeWhile_append_all _ _ _ hall, List.takeWhile_cons, if_neg]
    · rw [List.append_nil]
    · simp
  have hdw : (s ++ ':' :: rest).dropWhile (fun c => c != ':') =
      ':' :: rest := by
    rw [dropWhile_append_all _ _ _ hall, List.dropWhile_cons, if_neg]
    simp
  have hg : schemeGuard (s ++ ':' :: rest) = true := by
    simp only [schemeGuard]
    rw [htw]
    have hm : (':') ∈ s ++ ':' :: rest :=
      List.mem_append_right _ (List.mem_cons_self _ _)
    rw [decide_eq_true hm]
    cases s with
    | nil => exact absurd rfl hne
    | cons c stl =>
      simp only [List.cons_append, Bool.true_and, List.isEmpty_cons,
        Bool.not_false, h3 c rfl, h1]
  rw [schemeSplit, if_pos hg, htw, hdw, h2]
  rfl

theorem netlocSplit_concat (n p : PyStr)
    (hn : n.all (fun c => !netlocDelim c) = true)
    (hp : p = [] ∨ p.head? = some '/') :
    netlocSplit ('/' :: '/' :: (n ++ p)) = (n, p) := by
  have hq : ∀ l : PyStr, l = [] ∨ l.head? = some '/' →
      (l.takeWhile (fun c => !netlocDelim c) = [] ∧
        l.dropWhile (fun c => !netlocDelim c) = l) := by
    intro l hl
    rcases hl with hl | hl
    · subst hl
      exact ⟨rfl, rfl⟩
    · constructor
      · apply takeWhile_eq_nil_head
        cases l with
        | nil => exact Option.noConfusion hl
        | cons hd tl =>
          injection hl with hl2
          subst hl2
          rfl
      · apply dropWhile_eq_self_head
        cases l with
        | nil => rfl
        | cons hd tl =>
          injection hl with hl2
          subst hl2
          rfl
  have hc2 : List.take 2 ('/' :: '/' :: (n ++ p)) = ['/', '/'] := rfl
  rw [netlocSplit, if_pos hc2]
  have h1 : ('/' :: '/' :: (n ++ p)).drop 2 = n ++ p := rfl
  rw [h1, takeWhile_append_all _ _ _ hn, dropWhile_append_all _ _ _ hn,
    (hq p hp).1, (hq p hp).2, List.append_nil]

theorem netlocSplit_no (l : PyStr) (h : l.take 2 ≠ ['/', '/']) :
    netlocSplit l = ([], l) := by
  rw [netlocSplit, if_neg h]

theorem fragSplit_no (p : PyStr) (h : ('#') ∉ p) : fragSplit p = (p, []) := by
  rw [fragSplit, if_neg h]

theorem querySplit_no (p : PyStr) (h : ('?') ∉ p) :
    querySplit p = (p, []) := by
  rw [querySplit, if_neg h]

theorem not_mem_of_all_pq (p : PyStr)
    (h : p.all (fun c => !(c == '?' || c == '#')) = true) :
    ('?') ∉ p ∧ ('#') ∉ p := by
  rw [List.all_eq_true] at h
  constructor
  · intro hm
    have := h _ hm
    simp at this
  · intro hm
    have := h _ hm
    simp at this

theorem unsafe_c0 (c : Char) (h : urlUnsafe c = true) :
    c0OrSpace c = true := by
  simp only [urlUnsafe, Bool.or_eq_true, beq_iff_eq] at h
  rcases h with (h | h) | h <;> subst h <;> decide

theorem schemeSplit_no (l : PyStr) (h : schemeGuard l = false) :
    schemeSplit l = ([], l) := by
  rw [schemeSplit, if_neg]
  rw [h]
  exact Bool.false_ne_true

theorem adj_head (p : PyStr) :
    unsplitAdjust p = [] ∨ (unsplitAdjust p).head? = some '/' := by
  rw [unsplitAdjust]
  by_cases h : (!p.isEmpty && decide (p.take 1 ≠ ['/'])) = true
  · rw [if_pos h]
    exact Or.inr rfl
  · rw [if_neg h]
    simp only [Bool.and_eq_true, Bool.not_eq_true', List.isEmpty_iff,
      decide_eq_true_eq, not_and] at h
    cases p with
    | nil => exact Or.inl rfl
    | cons hd tl =>
      right
      have h2 := h (by simp)
      rw [not_not] at h2
      simp only [List.take_succ_cons, List.take_zero] at h2
      injection h2 with h3
      rw [h3]
      rfl

theorem adj_id (p : PyStr) (h : p = [] ∨ p.head? = some '/') :
    unsplitAdjust p = p := by
  rcases h with h | h
  · subst h
    rfl
  · cases p with
    | nil => rfl
    | cons hd tl =>
      injection h with h2
      subst h2
      rfl

theorem adj_all (q : Char → Bool) (p : PyStr) (hq : q '/' = true)
    (h : p.all q = true) : (unsplitAdjust p).all q = true := by
  rw [unsplitAdjust]
  by_cases hc : (!p.isEmpty && decide (p.take 1 ≠ ['/'])) = true
  · rw [if_pos hc, List.all_cons, hq, Bool.true_and]
    exact h
  · rw [if_neg hc]
    exact h

theorem adj_cases (p : PyStr) :
    unsplitAdjust p = p ∨ unsplitAdjust p = '/' :: p := by
  rw [unsplitAdjust]
  by_cases hc : (!p.isEmpty && decide (p.take 1 ≠ ['/'])) = true
  · rw [if_pos hc]
    exact Or.inr rfl
  · rw [if_neg hc]
    exact Or.inl rfl

theorem urlunsplit_empty_qf (s n p : PyStr) : urlunsplit s n p [] [] =
    if !s.isEmpty then
      s ++ ':' ::
        (if unsplitSlashes s n p then ['/', '/'] ++ n ++ unsplitAdjust p
         else p)
    else
      (if unsplitSlashes s n p then ['/', '/'] ++ n ++ unsplitAdjust p
       else p) := rfl

theorem double_slash_shape (n x : PyStr) :
    (['/', '/'] : PyStr) ++ n ++ x = '/' :: '/' :: (n ++ x) := by
  simp

theorem urlsplitRaw_eval (r : PyStr)
    (hd : r.dropWhile c0OrSpace = r)
    (hf : r.filter (fun c => !urlUnsafe c) = r)
    (s2 core n2 rest : PyStr) (hsch : schemeSplit r = (s2, core))
    (hnet : netlocSplit core = (n2, rest))
    (hq : ('?') ∉ rest) (hh : ('#') ∉ rest) :
    urlsplitRaw r = ⟨s2, n2, rest, [], []⟩ := by
  simp only [urlsplitRaw, hd, hf, hsch, hnet, fragSplit_no rest hh,
    querySplit_no rest hq]

theorem all_not_unsafe_of_scheme (s : PyStr)
    (h : s.all isSchemeChar = true) :
    s.all (fun c => !urlUnsafe c) = true := by
  rw [List.all_eq_true] at h ⊢
  intro c hc
  rw [schemeChar_in_safe_set c (h c hc)]
  rfl

theorem urlsplitRaw_unparse (s n p : PyStr) (w : UrlWF s n p)
    (hns : ¬(n = [] ∧ p.take 2 = ['/', '/'])) :
    urlsplitRaw (urlunsplit s n p [] []) =
      ⟨s, n, (if unsplitSlashes s n p then unsplitAdjust p else p),
        [], []⟩ := by
  have hsafe_s : s.all (fun c => !urlUnsafe c) = true :=
    all_not_unsafe_of_scheme s w.schemeChars
  by_cases hb : unsplitSlashes s n p = true
  · -- the double-slash core is emitted
    have hcore : urlunsplit s n p [] [] =
        (if !s.isEmpty then
          s ++ ':' :: ('/' :: '/' :: (n ++ unsplitAdjust p))
        else '/' :: '/' :: (n ++ unsplitAdjust p)) := by
      rw [urlunsplit_empty_qf, if_pos hb, double_slash_shape]
    have hadj : unsplitAdjust p = [] ∨ (unsplitAdjust p).head? = some '/' :=
      adj_head p
    have hadj_safe : (unsplitAdjust p).all (fun c => !urlUnsafe c) = true :=
      adj_all _ p (by decide) w.pathSafe
    have hadj_clean :
        (unsplitAdjust p).all (fun c => !(c == '?' || c == '#')) = true :=
      adj_all _ p (by decide) w.pathClean
    have hnq := not_mem_of_all_pq _ hadj_clean
    have hnet : netlocSplit ('/' :: '/' :: (n ++ unsplitAdjust p)) =
        (n, unsplitAdjust p) := netlocSplit_concat n _ w.netlocClean hadj
    have hcf : ('/' :: '/' :: (n ++ unsplitAdjust p)).all
        (fun c => !urlUnsafe c) = true := by
      simp only [List.all_cons, List.all_append, Bool.and_eq_true]
      exact ⟨by decide, by decide, w.netlocSafe, hadj_safe⟩
    rw [if_pos hb]
    by_cases hs : s = []
    · subst hs
      simp only [List.isEmpty_nil, Bool.not_true, Bool.false_eq_true,
        if_false] at hcore
      rw [hcore]
      refine urlsplitRaw_eval _ ?_ ?_ [] _ n (unsplitAdjust p) ?_ hnet
        hnq.1 hnq.2
      · exact dropWhile_eq_self_head _ _ (by rfl)
      · exact List.filter_eq_self.mpr (List.all_eq_true.mp hcf)
      · exact schemeSplit_no _ (schemeGuard_head_not_alpha _
          (fun c hc => by injection hc with hc2; rw [← hc2]; rfl))
    · have hs2 : (!s.isEmpty) = true := by
        cases s with
        | nil => exact absurd rfl hs
        | cons a b => rfl
      rw [if_pos hs2] at hcore
      rw [hcore]
      have hsch : schemeSplit
          (s ++ ':' :: ('/' :: '/' :: (n ++ unsplitAdjust p))) =
          (s, '/' :: '/' :: (n ++ unsplitAdjust p)) :=
        schemeSplit_concat s _ hs w.schemeChars w.schemeLower w.schemeAlpha
      refine urlsplitRaw_eval _ ?_ ?_ s _ n (unsplitAdjust p) hsch hnet
        hnq.1 hnq.2
      · apply dropWhile_eq_self_head
        cases s with
        | nil => exact absurd rfl hs
        | cons a b =>
          have ha := w.schemeAlpha a rfl
          simp only [List.cons_append, List.head?_cons, Option.all_some]
          rw [alpha_not_c0 a ha]
          rfl
      · apply List.filter_eq_self.mpr
        intro a ha
        rcases List.mem_append.mp ha with ha2 | ha2
        · exact List.all_eq_true.mp hsafe_s a ha2
        · rcases List.mem_cons.mp ha2 with ha3 | ha3
          · subst ha3
            rfl
          · exact List.all_eq_true.mp hcf a ha3
  · -- no double slash: the netloc is empty and the path is kept as is
    have hn : n = [] := by
      by_contra hc
      apply hb
      rw [unsplitSlashes, Bool.or_eq_true]
      left
      cases n with
      | nil => exact absurd rfl hc
      | cons a b => rfl
    have htake : p.take 2 ≠ ['/', '/'] := fun hc => hns ⟨hn, hc⟩
    have hnet : netlocSplit p = ([], p) := netlocSplit_no p htake
    have hnq := not_mem_of_all_pq _ w.pathClean
    rw [if_neg hb]
    subst hn
    by_cases hs : s = []
    · subst hs
      have hcore : urlunsplit [] [] p [] [] = p := by
        rw [urlunsplit_empty_qf, if_neg hb]
        rfl
      rw [hcore]
      refine urlsplitRaw_eval _ ?_ ?_ [] _ [] p ?_ hnet hnq.1 hnq.2
      · apply dropWhile_eq_self_head
        cases hp : p with
        | nil => rfl
        | cons a b =>
          have := w.pathHead rfl rfl a (by rw [hp]; rfl)
          simp only [List.head?_cons, Option.all_some]
          rw [this]
          rfl
      · exact List.filter_eq_self.mpr (List.all_eq_true.mp w.pathSafe)
      · exact schemeSplit_no _ (w.pathNoScheme rfl rfl)
    · have hs2 : (!s.isEmpty) = true := by
        cases s with
        | nil => exact absurd rfl hs
        | cons a b => rfl
      have hcore : urlunsplit s [] p [] [] = s ++ ':' :: p := by
        rw [urlunsplit_empty_qf, if_neg hb, if_pos hs2]
      rw [hcore]
      have hsch : schemeSplit (s ++ ':' :: p) = (s, p) :=
        schemeSplit_concat s _ hs w.schemeChars w.schemeLower w.schemeAlpha
      refine urlsplitRaw_eval _ ?_ ?_ s _ [] p hsch hnet hnq.1 hnq.2
      · apply dropWhile_eq_self_head
        cases s with
        | nil => exact absurd rfl hs
        | cons a b =>
          have ha := w.schemeAlpha a rfl
          simp only [List.cons_append, List.head?_cons, Option.all_some]
          rw [alpha_not_c0 a ha]
          rfl
      · apply List.filter_eq_self.mpr
        intro a ha
        rcases List.mem_append.mp ha with ha2 | ha2
        · exact List.all_eq_true.mp hsafe_s a ha2
        · rcases List.mem_cons.mp ha2 with ha3 | ha3
          · subst ha3
            rfl
          · exact List.all_eq_true.mp w.pathSafe a ha3

theorem takeWhile_pre (q : α → Bool) (l : List α) : l.takeWhile q <+: l :=
  ⟨l.dropWhile q, List.takeWhile_append_dropWhile q l⟩

theorem takeWhile_all_self (q : α → Bool) (l : List α) :
    (l.takeWhile q).all q = true := by
  rw [List.all_eq_true]
  exact fun c hc => List.mem_takeWhile_imp hc

theorem fragSplit_fst_pre (l : PyStr) : (fragSplit l).1 <+: l := by
  rw [fragSplit]
  by_cases h : ('#') ∈ l
  · rw [if_pos h]
    exact takeWhile_pre _ l
  · rw [if_neg h]

theorem querySplit_fst_pre (l : PyStr) : (querySplit l).1 <+: l := by
  rw [querySplit]
  by_cases h : ('?') ∈ l
  · rw [if_pos h]
    exact takeWhile_pre _ l
  · rw [if_neg h]

theorem take_sub_append (a b : List α) :
    (a ++ b).take ((a ++ b).length - b.length) = a := by
  have h : (a ++ b).length - b.length = a.length := by
    rw [List.length_append]
    omega
  rw [h, List.take_left]

theorem splitparams_decomp (x : PyStr) :
    x = x.take (x.length -
        ((x.reverse.takeWhile (fun c => c != '/')).reverse).length) ++
      (x.reverse.takeWhile (fun c => c != '/')).reverse := by
  set t := x.reverse.takeWhile (fun c => c != '/') with ht
  set d := x.reverse.dropWhile (fun c => c != '/') with hd
  have h1 : x.reverse = t ++ d := (List.takeWhile_append_dropWhile _ _).symm
  have h2 : x = d.reverse ++ t.reverse := by
    conv_lhs => rw [← List.reverse_reverse x, h1]
    rw [List.reverse_append]
  rw [h2, take_sub_append]

theorem pathParams_fst_pre (x : PyStr) : (pathParams x).1 <+: x := by
  rw [pathParams]
  by_cases h : (';') ∈ x
  · rw [if_pos h, splitparams]
    by_cases h2 : ('/') ∈ x
    · rw [if_pos h2]
      by_cases h3 : (';') ∈ (x.reverse.takeWhile (fun c => c != '/')).reverse
      · rw [if_pos h3]
        conv_rhs => rw [splitparams_decomp x]
        rw [List.prefix_append_right_inj]
        exact takeWhile_pre _ _
      · rw [if_neg h3]
    · rw [if_neg h2]
      exact takeWhile_pre _ x
  · rw [if_neg h]

theorem rstrip_pre (x : PyStr) : rstripSlash x <+: x := by
  rw [rstripSlash]
  rw [← List.reverse_suffix, List.reverse_reverse]
  exact List.dropWhile_suffix _

theorem rstrip_idem (x : PyStr) :
    rstripSlash (rstripSlash x) = rstripSlash x := by
  rw [rstripSlash, rstripSlash, List.reverse_reverse,
    List.dropWhile_idempotent]

theorem all_of_sublist (q : α → Bool) (l m : List α) (h : l.Sublist m)
    (hall : m.all q = true) : l.all q = true := by
  rw [List.all_eq_true] at hall ⊢
  exact fun c hc => hall c (h.subset hc)

theorem schemeSplit_fst_chars (l : PyStr) :
    (schemeSplit l).1.all isSchemeChar = true := by
  rw [schemeSplit]
  by_cases hg : schemeGuard l = true
  · rw [if_pos hg]
    simp only [schemeGuard, Bool.and_eq_true] at hg
    have h4 := hg.2
    simp only [List.all_map]
    rw [List.all_eq_true] at h4 ⊢
    exact fun c hc => pyLower_schemeChar c (h4 c hc)
  · rw [if_neg hg]
    rfl

theorem schemeSplit_fst_lower (l : PyStr) :
    (schemeSplit l).1.map pyLower = (schemeSplit l).1 := by
  rw [schemeSplit]
  by_cases hg : schemeGuard l = true
  · rw [if_pos hg]
    show (List.map pyLower _).map pyLower = _
    rw [List.map_map]
    have hfun : pyLower ∘ pyLower = pyLower := funext pyLower_idem
    rw [hfun]
  · rw [if_neg hg]
    rfl

theorem schemeSplit_fst_alpha (l : PyStr) (c : Char)
    (hc : (schemeSplit l).1.head? = some c) : c.isAlpha = true := by
  rw [schemeSplit] at hc
  by_cases hg : schemeGuard l = true
  · rw [if_pos hg] at hc
    have hg2 := hg
    simp only [schemeGuard, Bool.and_eq_true] at hg2
    cases l with
    | nil => exact absurd hg2.1.2 (by simp)
    | cons c0 l1 =>
      have ha : c0.isAlpha = true := hg2.1.2
      have hne : (c0 != ':') = true := by
        by_contra hcc
        simp only [bne_iff_ne, ne_eq, not_not] at hcc
        subst hcc
        have := hg2.1.1.2
        rw [List.takeWhile_cons, if_neg (by simp)] at this
        exact absurd this (by simp)
      rw [List.takeWhile_cons, if_pos hne] at hc
      simp only [List.map_cons, List.head?_cons] at hc
      injection hc with hc2
      rw [← hc2]
      exact pyLower_alpha c0 ha
  · rw [if_neg hg] at hc
    exact absurd hc (by simp)

theorem schemeSplit_snd_sublist (l : PyStr) :
    (schemeSplit l).2.Sublist l := by
  rw [schemeSplit]
  by_cases hg : schemeGuard l = true
  · rw [if_pos hg]
    exact (List.tail_sublist _).trans (List.dropWhile_sublist _)
  · rw [if_neg hg]

theorem schemeSplit_empty (l : PyStr) (h : (schemeSplit l).1 = []) :
    schemeGuard l = false ∧ (schemeSplit l).2 = l := by
  by_cases hg : schemeGuard l = true
  · exfalso
    rw [schemeSplit, if_pos hg] at h
    simp only [List.map_eq_nil_iff] at h
    have hg2 := hg
    simp only [schemeGuard, Bool.and_eq_true] at hg2
    rw [h] at hg2
    exact absurd hg2.1.1.2 (by simp)
  · constructor
    · rw [Bool.eq_false_iff]
      exact hg
    · rw [schemeSplit, if_neg hg]

theorem netlocSplit_fst_clean (m : PyStr) :
    (netlocSplit m).1.all (fun c => !netlocDelim c) = true := by
  rw [netlocSplit]
  by_cases ht : m.take 2 = ['/', '/']
  · rw [if_pos ht]
    exact takeWhile_all_self _ _
  · rw [if_neg ht]
    rfl

theorem netlocSplit_fst_sublist (m : PyStr) :
    (netlocSplit m).1.Sublist m := by
  rw [netlocSplit]
  by_cases ht : m.take 2 = ['/', '/']
  · rw [if_pos ht]
    exact (List.takeWhile_sublist _).trans (List.drop_sublist _ _)
  · rw [if_neg ht]
    exact List.nil_sublist m

theorem netlocSplit_snd_sublist (m : PyStr) :
    (netlocSplit m).2.Sublist m := by
  rw [netlocSplit]
  by_cases ht : m.take 2 = ['/', '/']
  · rw [if_pos ht]
    exact (List.dropWhile_sublist _).trans (List.drop_sublist _ _)
  · rw [if_neg ht]

theorem netlocSplit_dichotomy (m : PyStr) :
    ((netlocSplit m).1 = [] ∧ (netlocSplit m).2 = m ∧
      m.take 2 ≠ ['/', '/']) ∨
    ((netlocSplit m).2 = [] ∨ ∃ c, (netlocSplit m).2.head? = some c ∧
      netlocDelim c = true) := by
  by_cases ht : m.take 2 = ['/', '/']
  · right
    rw [netlocSplit, if_pos ht]
    have hh := head_dropWhile_all (fun c => !netlocDelim c) (m.drop 2)
    cases hu3 : (m.drop 2).dropWhile (fun c => !netlocDelim c) with
    | nil => exact Or.inl rfl
    | cons c l =>
      right
      refine ⟨c, rfl, ?_⟩
      rw [hu3] at hh
      simp only [List.head?_cons, Option.all_some, Bool.not_not] at hh
      exact hh
  · left
    rw [netlocSplit, if_neg ht]
    exact ⟨rfl, rfl, ht⟩

theorem fragSplit_fst_no_hash (l : PyStr) : ('#') ∉ (fragSplit l).1 := by
  rw [fragSplit]
  by_cases h : ('#') ∈ l
  · rw [if_pos h]
    intro hm
    have := List.mem_takeWhile_imp hm
    simp at this
  · rw [if_neg h]
    exact h

theorem querySplit_fst_no_hash (l : PyStr) (h : ('#') ∉ l) :
    ('#') ∉ (querySplit l).1 :=
  fun hm => h ((querySplit_fst_pre l).sublist.subset hm)

theorem querySplit_fst_no_q (l : PyStr) : ('?') ∉ (querySplit l).1 := by
  rw [querySplit]
  by_cases h : ('?') ∈ l
  · rw [if_pos h]
    intro hm
    have := List.mem_takeWhile_imp hm
    simp at this
  · rw [if_neg h]
    exact h

theorem fragSplit_cons_keep (a : Char) (l : PyStr) (ha : a ≠ '#') :
    ∃ X, (fragSplit (a :: l)).1 = a :: X := by
  rw [fragSplit]
  by_cases h : ('#') ∈ a :: l
  · rw [if_pos h]
    refine ⟨l.takeWhile (fun c => c != '#'), ?_⟩
    rw [List.takeWhile_cons, if_pos (by simp [ha])]
  · rw [if_neg h]
    exact ⟨l, rfl⟩

theorem fragSplit_cons_stop (l : PyStr) :
    (fragSplit ('#' :: l)).1 = [] := by
  rw [fragSplit, if_pos (List.mem_cons_self _ _), List.takeWhile_cons,
    if_neg (by simp)]

theorem querySplit_cons_keep (a : Char) (l : PyStr) (ha : a ≠ '?') :
    ∃ X, (querySplit (a :: l)).1 = a :: X := by
  rw [querySplit]
  by_cases h : ('?') ∈ a :: l
  · rw [if_pos h]
    refine ⟨l.takeWhile (fun c => c != '?'), ?_⟩
    rw [List.takeWhile_cons, if_pos (by simp [ha])]
  · rw [if_neg h]
    exact ⟨l, rfl⟩

theorem querySplit_cons_stop (l : PyStr) :
    (querySplit ('?' :: l)).1 = [] := by
  rw [querySplit, if_pos (List.mem_cons_self _ _), List.takeWhile_cons,
    if_neg (by simp)]

theorem path0_of_delim (u3 : PyStr)
    (h : u3 = [] ∨ ∃ c, u3.head? = some c ∧ netlocDelim c = true) :
    (querySplit (fragSplit u3).1).1 = [] ∨
      (querySplit (fragSplit u3).1).1.head? = some '/' := by
  rcases h with h | ⟨c, hc, hdel⟩
  · subst h
    exact Or.inl rfl
  · cases u3 with
    | nil => exact Option.noConfusion hc
    | cons c0 l =>
      injection hc with hc2
      subst hc2
      simp only [netlocDelim, Bool.or_eq_true, beq_iff_eq] at hdel
      rcases hdel with (h1 | h1) | h1
      · subst h1
        obtain ⟨X, hX⟩ := fragSplit_cons_keep '/' l (by decide)
        rw [hX]
        obtain ⟨Y, hY⟩ := querySplit_cons_keep '/' X (by decide)
        rw [hY]
        exact Or.inr rfl
      · subst h1
        obtain ⟨X, hX⟩ := fragSplit_cons_keep '?' l (by decide)
        rw [hX, querySplit_cons_stop]
        exact Or.inl rfl
      · subst h1
        rw [fragSplit_cons_stop]
        exact Or.inl rfl

theorem split_pipeline_wf (url1 P : PyStr)
    (hsafe : url1.all (fun c => !urlUnsafe c) = true)
    (hhead : ∀ c, url1.head? = some c → c0OrSpace c = false)
    (hP : P <+:
      (querySplit (fragSplit (netlocSplit (schemeSplit url1).2).2).1).1) :
    UrlWF (schemeSplit url1).1 (netlocSplit (schemeSplit url1).2).1
      (rstripSlash P) := by
  have hU2 : (schemeSplit url1).2.Sublist url1 := schemeSplit_snd_sublist _
  have hU3 : (netlocSplit (schemeSplit url1).2).2.Sublist (schemeSplit url1).2 :=
    netlocSplit_snd_sublist _
  have hF1 : (fragSplit (netlocSplit (schemeSplit url1).2).2).1 <+:
      (netlocSplit (schemeSplit url1).2).2 := fragSplit_fst_pre _
  have hP0 : (querySplit (fragSplit (netlocSplit (schemeSplit url1).2).2).1).1
      <+: (fragSplit (netlocSplit (schemeSplit url1).2).2).1 :=
    querySplit_fst_pre _
  have hp : rstripSlash P <+:
      (querySplit (fragSplit (netlocSplit (schemeSplit url1).2).2).1).1 :=
    (rstrip_pre P).trans hP
  have hpsub : (rstripSlash P).Sublist url1 :=
    ((hp.trans (hP0.trans hF1)).sublist.trans hU3).trans
      (hU2.trans (List.Sublist.refl url1))
  have hnoq : ('?') ∉
      (querySplit (fragSplit (netlocSplit (schemeSplit url1).2).2).1).1 :=
    querySplit_fst_no_q _
  have hnoh : ('#') ∉
      (querySplit (fragSplit (netlocSplit (schemeSplit url1).2).2).1).1 :=
    querySplit_fst_no_hash _ (fragSplit_fst_no_hash _)
  refine ⟨schemeSplit_fst_chars url1, schemeSplit_fst_lower url1,
    fun c hc => schemeSplit_fst_alpha url1 c hc,
    netlocSplit_fst_clean _, ?_, ?_, ?_, ?_, ?_, ?_⟩
  · exact all_of_sublist _ _ _
      ((netlocSplit_fst_sublist _).trans hU2) hsafe
  · exact all_of_sublist _ _ _ hpsub hsafe
  · -- pathHead
    intro hs hn c hc
    rcases netlocSplit_dichotomy (schemeSplit url1).2 with
      ⟨_, hid, _⟩ | hdel
    · have hu2 := (schemeSplit_empty url1 hs).2
      have hpre : rstripSlash P <+: url1 := by
        rw [← hu2, ← hid]
        exact hp.trans (hP0.trans hF1)
      rcases head_of_pre _ _ hpre with h0 | h0
      · rw [h0] at hc
        exact Option.noConfusion hc
      · rw [h0] at hc
        exact hhead c hc
    · rcases path0_of_delim _ hdel with h0 | h0
      · rw [h0] at hp
        have := List.prefix_nil.mp hp
        rw [this] at hc
        exact Option.noConfusion hc
      · rcases head_of_pre _ _ hp with h1 | h1
        · rw [h1] at hc
          exact Option.noConfusion hc
        · rw [h1, h0] at hc
          injection hc with hc2
          rw [← hc2]
          rfl
  · -- pathClean
    rw [List.all_eq_true]
    intro c hc
    have hc0 : c ∈
        (querySplit (fragSplit (netlocSplit (schemeSplit url1).2).2).1).1 :=
      hp.sublist.subset hc
    have h1 : c ≠ '?' := fun he => hnoq (he ▸ hc0)
    have h2 : c ≠ '#' := fun he => hnoh (he ▸ hc0)
    simp [h1, h2]
  · -- pathSlash
    intro hn
    rcases netlocSplit_dichotomy (schemeSplit url1).2 with
      ⟨hn0, _, _⟩ | hdel
    · exact absurd hn0 hn
    · rcases path0_of_delim _ hdel with h0 | h0
      · rw [h0] at hp
        exact Or.inl (List.prefix_nil.mp hp)
      · rcases head_of_pre _ _ hp with h1 | h1
        · exact Or.inl h1
        · exact Or.inr (by rw [h1, h0])
  · -- pathNoScheme
    intro hs hn
    rcases netlocSplit_dichotomy (schemeSplit url1).2 with
      ⟨_, hid, _⟩ | hdel
    · have hu2 := (schemeSplit_empty url1 hs).2
      have hg := (schemeSplit_empty url1 hs).1
      have hpre : rstripSlash P <+: url1 := by
        rw [← hu2, ← hid]
        exact hp.trans (hP0.trans hF1)
      exact schemeGuard_pre_false _ _ hg hpre
    · rcases path0_of_delim _ hdel with h0 | h0
      · rw [h0] at hp
        rw [List.prefix_nil.mp hp]
        rfl
      · rcases head_of_pre _ _ hp with h1 | h1
        · rw [h1]
          rfl
        · apply schemeGuard_head_not_alpha
          intro c hc
          rw [h1, h0] at hc
          injection hc with hc2
          rw [← hc2]
          rfl

theorem url1_safe (u : PyStr) :
    ((u.dropWhile c0OrSpace).filter (fun c => !urlUnsafe c)).all
      (fun c => !urlUnsafe c) = true := by
  rw [List.all_eq_true]
  exact fun c hc => @List.of_mem_filter Char (fun c => !urlUnsafe c) c _ hc

theorem url1_head (u : PyStr) (c : Char)
    (hc : ((u.dropWhile c0OrSpace).filter
      (fun c => !urlUnsafe c)).head? = some c) : c0OrSpace c = false := by
  have hh := head_dropWhile_all c0OrSpace u
  cases hw : u.dropWhile c0OrSpace with
  | nil =>
    rw [hw] at hc
    exact Option.noConfusion hc
  | cons a w =>
    rw [hw] at hh hc
    simp only [List.head?_cons, Option.all_some, Bool.not_eq_true'] at hh
    have hnu : urlUnsafe a = false := by
      by_contra hcc
      rw [Bool.not_eq_false] at hcc
      rw [unsafe_c0 a hcc] at hh
      exact Bool.noConfusion hh
    rw [List.filter_cons, if_pos (by rw [hnu]; rfl)] at hc
    simp only [List.head?_cons] at hc
    injection hc with hc2
    rw [← hc2]
    exact hh

theorem urlparse_wf (u : PyStr) (parts : ParseResult)
    (h : urlparse u = .ok parts) :
    UrlWF parts.scheme parts.netloc (rstripSlash parts.path) ∧
      badBrackets parts.netloc = false := by
  by_cases hbb : badBrackets (urlsplitRaw u).netloc = true
  · exfalso
    have hsp : urlsplit u = .error () := by
      simp only [urlsplit, hbb, if_true]
    simp only [urlparse, hsp] at h
    exact Except.noConfusion h
  · have hsp : urlsplit u = .ok (urlsplitRaw u) := by
      simp only [urlsplit]
      rw [if_neg hbb]
    simp only [urlparse, hsp] at h
    rw [Bool.not_eq_true] at hbb
    by_cases hup : (urlsplitRaw u).scheme ∈ usesParamsList
    · rw [if_pos hup] at h
      injection h with h2
      subst h2
      exact ⟨split_pipeline_wf _ _ (url1_safe u) (url1_head u)
        (pathParams_fst_pre _), hbb⟩
    · rw [if_neg hup] at h
      injection h with h2
      subst h2
      exact ⟨split_pipeline_wf _ _ (url1_safe u) (url1_head u)
        (List.prefix_refl _), hbb⟩

theorem adj_spec (p : PyStr) :
    (unsplitAdjust p = p ∧ (p = [] ∨ p.take 1 = ['/'])) ∨
    (unsplitAdjust p = '/' :: p ∧ p ≠ [] ∧ p.take 1 ≠ ['/']) := by
  rw [unsplitAdjust]
  by_cases hc : (!p.isEmpty && decide (p.take 1 ≠ ['/'])) = true
  · rw [if_pos hc]
    simp only [Bool.and_eq_true, Bool.not_eq_true', List.isEmpty_iff,
      decide_eq_true_eq] at hc
    right
    refine ⟨rfl, ?_, hc.2⟩
    intro he
    subst he
    exact absurd hc.1 (by simp)
  · rw [if_neg hc]
    simp only [Bool.and_eq_true, decide_eq_true_eq, not_and] at hc
    left
    refine ⟨rfl, ?_⟩
    by_cases hp : p = []
    · exact Or.inl hp
    · right
      have h2 := hc (by
        cases p with
        | nil => exact absurd rfl hp
        | cons a b => rfl)
      rw [not_not] at h2
      exact h2

theorem unsplit_stable (s n p : PyStr) (w : UrlWF s n p) :
    urlunsplit s n
      (if unsplitSlashes s n p then unsplitAdjust p else p) [] [] =
    urlunsplit s n p [] [] := by
  by_cases hb : unsplitSlashes s n p = true
  · rw [if_pos hb]
    by_cases hn : n = []
    · rcases adj_spec p with ⟨hadj, _⟩ | ⟨hadj, hne, htake⟩
      · rw [hadj]
      · subst hn
        have hb2 := hb
        simp only [unsplitSlashes, List.isEmpty_nil, Bool.not_true,
          Bool.false_or, Bool.and_eq_true] at hb2
        obtain ⟨c0, pt, rfl⟩ : ∃ c0 pt, p = c0 :: pt := by
          cases p with
          | nil => exact absurd rfl hne
          | cons a b => exact ⟨a, b, rfl⟩
        have hc0 : c0 ≠ '/' := by
          intro he
          subst he
          exact htake rfl
        have htk2 : ¬ (('/' :: c0 :: pt).take 2 = ['/', '/']) := by
          intro he
          simp only [List.take_succ_cons, List.take_zero] at he
          injection he with he1 he2
          injection he2 with he3
          exact hc0 he3
        have hb3 : unsplitSlashes s [] ('/' :: c0 :: pt) = true := by
          simp only [unsplitSlashes, List.isEmpty_nil, Bool.not_true,
            Bool.false_or, Bool.and_eq_true]
          exact ⟨⟨hb2.1.1, hb2.1.2⟩, by
            simp only [Bool.not_eq_true', decide_eq_false_iff_not]
            exact htk2⟩
        rw [hadj]
        rw [urlunsplit_empty_qf, urlunsplit_empty_qf, if_pos hb3,
          if_pos hb]
        have ha2 : unsplitAdjust ('/' :: c0 :: pt) = '/' :: c0 :: pt :=
          adj_id _ (Or.inr rfl)
        rw [ha2, hadj]
    · have hadj : unsplitAdjust p = p := adj_id p (w.pathSlash hn)
      rw [hadj]
  · rw [if_neg hb]

theorem rstrip_cons_slash (p : PyStr) (hne : p ≠ [])
    (hr : rstripSlash p = p) : rstripSlash ('/' :: p) = '/' :: p := by
  have h1 : p.reverse.dropWhile (fun c => c == '/') = p.reverse := by
    have h2 := congrArg List.reverse hr
    rw [rstripSlash, List.reverse_reverse] at h2
    exact h2
  have hdw : ('/' :: p).reverse.dropWhile (fun c => c == '/') =
      ('/' :: p).reverse := by
    rw [List.reverse_cons]
    apply dropWhile_eq_self_head
    cases hpr : p.reverse with
    | nil =>
      exact absurd (List.reverse_eq_nil_iff.mp hpr) hne
    | cons a t =>
      have hqa : (a == '/') = false := by
        by_contra hq
        rw [Bool.not_eq_false] at hq
        rw [hpr, List.dropWhile_cons, if_pos hq] at h1
        have hlen := congrArg List.length h1
        have hsub := (List.dropWhile_sublist (l := t)
          (fun c => c == '/')).length_le
        simp only [List.length_cons] at hlen
        omega
      simp only [List.cons_append, List.head?_cons, Option.all_some]
      rw [hqa]
      rfl
  rw [rstripSlash, hdw, List.reverse_reverse]

theorem rstrip_adj (s n p : PyStr) (hr : rstripSlash p = p) :
    rstripSlash (if unsplitSlashes s n p then unsplitAdjust p else p) =
      (if unsplitSlashes s n p then unsplitAdjust p else p) := by
  by_cases hb : unsplitSlashes s n p = true
  · rw [if_pos hb]
    rcases adj_spec p with ⟨hadj, _⟩ | ⟨hadj, hne, _⟩
    · rw [hadj]
      exact hr
    · rw [hadj]
      exact rstrip_cons_slash p hne hr
  · rw [if_neg hb]
    exact hr

theorem unparse_no_params (s n p : PyStr) :
    urlunparse s n p [] [] [] = urlunsplit s n p [] [] := rfl

theorem urlparse_unparse (s n p : PyStr) (w : UrlWF s n p)
    (hbb : badBrackets n = false)
    (hpp : pathParams (if unsplitSlashes s n p then unsplitAdjust p else p) =
      ((if unsplitSlashes s n p then unsplitAdjust p else p), []))
    (hns : ¬(n = [] ∧ p.take 2 = ['/', '/'])) :
    urlparse (urlunsplit s n p [] []) =
      .ok ⟨s, n, (if unsplitSlashes s n p then unsplitAdjust p else p),
        [], [], []⟩ := by
  have hraw := urlsplitRaw_unparse s n p w hns
  have hspl : urlsplit (urlunsplit s n p [] []) =
      .ok ⟨s, n, (if unsplitSlashes s n p then unsplitAdjust p else p),
        [], []⟩ := by
    simp only [urlsplit, hraw]
    rw [if_neg]
    rw [hbb]
    exact Bool.false_ne_true
  simp only [urlparse, hspl]
  by_cases hup : s ∈ usesParamsList
  · rw [if_pos hup, hpp]
  · rw [if_neg hup]

/-- Claim C8, counterexample to idempotence as stated: normalize_url is
not idempotent for every URL.  On "http://h/x;y/" the first pass strips
the trailing slash, which moves the semicolon into the last path segment,
so the second pass splits ";y" off as parameters and drops it: the first
result "http://h/x;y" renormalizes to the different string "http://h/x". -/
theorem normalize_url_not_idempotent :
    normalize_url ("http://h/x;y/".toList) =
      Except.ok ("http://h/x;y".toList) ∧
    normalize_url ("http://h/x;y".toList) =
      Except.ok ("http://h/x".toList) ∧
    ("http://h/x;y".toList : PyStr) ≠ ("http://h/x".toList : PyStr) := by
  refine ⟨rfl, rfl, ?_⟩
  decide

/-- Claim C8, amended: normalize_url is idempotent on every URL it
parses whose normalized form reparses to the same components: whenever
urlparse succeeds on u, the trailing-slash-stripped path carries no
parameter part (no semicolon that urlparse would split off on the second
pass), and the anomalous schemeless case of an empty netloc with a
stripped path starting in two slashes is excluded, normalize_url u
succeeds with some r and normalize_url r returns r again. -/
theorem normalize_url_idem (u : PyStr) (parts : ParseResult)
    (hu : urlparse u = Except.ok parts)
    (hpp : pathParams (normAdjustedPath parts) = (normAdjustedPath parts, []))
    (hns : ¬(parts.netloc = [] ∧
      (rstripSlash parts.path).take 2 = ['/', '/'])) :
    ∃ r, normalize_url u = Except.ok r ∧ normalize_url r = Except.ok r := by
  obtain ⟨w, hbb⟩ := urlparse_wf u parts hu
  refine ⟨urlunsplit parts.scheme parts.netloc (rstripSlash parts.path)
    [] [], ?_, ?_⟩
  · simp only [normalize_url, hu]
    rw [unparse_no_params]
  · simp only [normAdjustedPath] at hpp
    have hpr := urlparse_unparse parts.scheme parts.netloc
      (rstripSlash parts.path) w hbb hpp hns
    simp only [normalize_url, hpr]
    rw [unparse_no_params, rstrip_adj parts.scheme parts.netloc
      (rstripSlash parts.path) (rstrip_idem parts.path),
      unsplit_stable parts.scheme parts.netloc (rstripSlash parts.path) w]

/-- Witness for the amended C8 theorem at the concrete URL
"http://ex.com/a/b/": its normalization "http://ex.com/a/b" is a fixed
point of normalize_url. -/
theorem normalize_url_idem_witness :
    ∃ r, normalize_url ("http://ex.com/a/b/".toList) = Except.ok r ∧
      normalize_url r = Except.ok r :=
  normalize_url_idem ("http://ex.com/a/b/".toList)
    ⟨"http".toList, "ex.com".toList, "/a/b/".toList, [], [], []⟩
    rfl rfl (by decide)

theorem crawlLoop_exit (maxPages maxDepth : Nat)
    (fetchFn : PyStr → Option PageData)
    (geminiFn : PyStr → List PyStr → Option PyStr) (fuel : Nat) :
    ∀ st st',
      crawlLoop maxPages maxDepth fetchFn geminiFn fuel st = some st' →
      st'.queue = [] ∨ maxPages ≤ st'.page_count ∨
        is_output_complete st'.output = true := by
  induction fuel with
  | zero =>
    intro st st' h
    simp only [crawlLoop] at h
    exact Option.noConfusion h
  | succ fuel ih =>
    intro st st' h
    rw [crawlLoop] at h
    split at h
    · next hg =>
      injection h with h2
      subst h2
      exact hg
    · next hg =>
      split at h
      · next hq =>
        injection h with h2
        subst h2
        exact Or.inl hq
      · split at h
        · exact ih _ _ h
        · split at h
          · exact ih _ _ h
          · exact ih _ _ h

theorem queue_front_facts (maxPages : Nat)
    (fetchFn : PyStr → Option PageData) (st : CrawlState) (url : PyStr)
    (depth : Nat) (rest : List (PyStr × Nat))
    (hq : st.queue = (url, depth) :: rest)
    (inv : CrawlInv maxPages fetchFn st) :
    (∀ y ∈ rest.map Prod.snd, depth ≤ y) ∧
      List.Sorted (· ≤ ·) (rest.map Prod.snd) ∧
      (∀ y ∈ rest.map Prod.snd, y ≤ depth + 1) := by
  have hs := inv.queueSorted
  rw [hq] at hs
  simp only [List.map_cons] at hs
  rw [List.sorted_cons] at hs
  have hw := inv.queueWindow
  rw [hq] at hw
  simp only [List.map_cons, List.head?_cons] at hw
  refine ⟨hs.1, hs.2, ?_⟩
  intro y hy
  exact hw depth rfl y (List.mem_cons_of_mem _ hy)

theorem succCount_append (fetchFn : PyStr → Option PageData)
    (t : List (PyStr × Nat)) (e : PyStr × Nat) :
    succCount fetchFn (t ++ [e]) =
      succCount fetchFn t + (if (fetchFn e.1).isSome then 1 else 0) := by
  simp only [succCount, List.filter_append, List.length_append]
  congr 1
  simp only [List.filter_cons, List.filter_nil]
  by_cases hb : (fetchFn e.1).isSome = true
  · rw [if_pos hb, if_pos hb]
    rfl
  · rw [if_neg hb, if_neg hb]
    rfl

theorem trace_snd_sorted (t : List (PyStr × Nat)) (url : PyStr)
    (depth : Nat) (hs : List.Sorted (· ≤ ·) (t.map Prod.snd))
    (hle : ∀ x ∈ t.map Prod.snd, x ≤ depth) :
    List.Sorted (· ≤ ·) ((t ++ [(url, depth)]).map Prod.snd) := by
  rw [List.map_append]
  simp only [List.map_cons, List.map_nil]
  exact List.pairwise_append.mpr ⟨hs, List.pairwise_singleton _ _, by
    intro a ha b hb
    rw [List.mem_singleton] at hb
    subst hb
    exact hle a ha⟩

theorem trace_fst_nodup (t : List (PyStr × Nat)) (url : PyStr)
    (depth : Nat) (hn : (t.map Prod.fst).Nodup)
    (hvis : url ∉ t.map Prod.fst) :
    ((t ++ [(url, depth)]).map Prod.fst).Nodup := by
  rw [List.map_append]
  simp only [List.map_cons, List.map_nil]
  rw [List.nodup_append]
  refine ⟨hn, List.nodup_singleton _, ?_⟩
  intro a ha hb
  rw [List.mem_singleton] at hb
  subst hb
  exact hvis ha

theorem inv_dequeue (maxPages : Nat) (fetchFn : PyStr → Option PageData)
    (st : CrawlState) (url : PyStr) (depth : Nat)
    (rest : List (PyStr × Nat)) (hq : st.queue = (url, depth) :: rest)
    (inv : CrawlInv maxPages fetchFn st) :
    CrawlInv maxPages fetchFn { st with queue := rest } := by
  obtain ⟨hfr, hrs, hwin⟩ := queue_front_facts _ fetchFn st url depth rest hq inv
  refine ⟨inv.traceSorted, hrs, ?_, ?_, inv.traceNodup, inv.countEq,
    inv.countLe⟩
  · intro x hx y hy
    refine inv.traceQueue x hx y ?_
    rw [hq]
    simp only [List.map_cons]
    exact List.mem_cons_of_mem _ hy
  · intro y0 hy0 y hy
    have h1 := hwin y hy
    have h2 := hfr y0 (List.mem_of_mem_head? hy0)
    omega

theorem inv_fail (maxPages : Nat) (fetchFn : PyStr → Option PageData)
    (st : CrawlState) (url : PyStr) (depth : Nat)
    (rest : List (PyStr × Nat)) (hq : st.queue = (url, depth) :: rest)
    (hvis : url ∉ st.trace.map Prod.fst) (hfetch : fetchFn url = none)
    (inv : CrawlInv maxPages fetchFn st) :
    CrawlInv maxPages fetchFn
      { st with trace := st.trace ++ [(url, depth)], queue := rest } := by
  obtain ⟨hfr, hrs, hwin⟩ := queue_front_facts _ fetchFn st url depth rest hq inv
  have htq : ∀ x ∈ st.trace.map Prod.snd, x ≤ depth := by
    intro x hx
    refine inv.traceQueue x hx depth ?_
    rw [hq]
    simp
  refine ⟨trace_snd_sorted _ _ _ inv.traceSorted htq, hrs, ?_, ?_,
    trace_fst_nodup _ _ _ inv.traceNodup hvis, ?_, inv.countLe⟩
  · intro x hx y hy
    rw [List.map_append, List.mem_append] at hx
    rcases hx with hx | hx
    · refine inv.traceQueue x hx y ?_
      rw [hq]
      simp only [List.map_cons]
      exact List.mem_cons_of_mem _ hy
    · simp only [List.map_cons, List.map_nil, List.mem_singleton] at hx
      subst hx
      exact hfr y hy
  · intro y0 hy0 y hy
    have h1 := hwin y hy
    have h2 := hfr y0 (List.mem_of_mem_head? hy0)
    omega
  · show st.page_count = succCount fetchFn (st.trace ++ [(url, depth)])
    rw [succCount_append]
    simp only [hfetch, Option.isSome_none, Bool.false_eq_true, if_false]
    rw [Nat.add_zero]
    exact inv.countEq

theorem inv_succ (maxPages : Nat) (fetchFn : PyStr → Option PageData)
    (st : CrawlState) (url : PyStr) (depth : Nat)
    (rest : List (PyStr × Nat)) (out2 : PyDict) (new : List PyStr)
    (hq : st.queue = (url, depth) :: rest)
    (hvis : url ∉ st.trace.map Prod.fst)
    (hfetch : (fetchFn url).isSome = true)
    (hcnt : st.page_count < maxPages)
    (inv : CrawlInv maxPages fetchFn st) :
    CrawlInv maxPages fetchFn
      { output := out2,
        trace := st.trace ++ [(url, depth)],
        queue := rest ++ new.map (fun l => (l, depth + 1)),
        page_count := st.page_count + 1 } := by
  obtain ⟨hfr, hrs, hwin⟩ := queue_front_facts _ fetchFn st url depth rest hq inv
  have htq : ∀ x ∈ st.trace.map Prod.snd, x ≤ depth := by
    intro x hx
    refine inv.traceQueue x hx depth ?_
    rw [hq]
    simp
  have hnew : ∀ y ∈ (new.map (fun l => (l, depth + 1))).map Prod.snd,
      y = depth + 1 := by
    intro y hy
    simp only [List.map_map, List.mem_map, Function.comp] at hy
    obtain ⟨l, _, hl⟩ := hy
    exact hl.symm
  refine ⟨trace_snd_sorted _ _ _ inv.traceSorted htq, ?_, ?_, ?_,
    trace_fst_nodup _ _ _ inv.traceNodup hvis, ?_, hcnt⟩
  · -- queue sortedness
    show List.Sorted (· ≤ ·)
      ((rest ++ new.map (fun l => (l, depth + 1))).map Prod.snd)
    rw [List.map_append]
    refine List.pairwise_append.mpr ⟨hrs, ?_, ?_⟩
    · refine List.pairwise_of_forall_mem_list ?_
      intro a ha b hb
      rw [hnew a ha, hnew b hb]
    · intro a ha b hb
      rw [hnew b hb]
      exact hwin a ha
  · -- trace depths below queue depths
    intro x hx y hy
    rw [List.map_append, List.mem_append] at hx
    rw [List.map_append, List.mem_append] at hy
    have hxd : x ≤ depth := by
      rcases hx with hx | hx
      · exact htq x hx
      · simp only [List.map_cons, List.map_nil, List.mem_singleton] at hx
        omega
    rcases hy with hy | hy
    · rcases hx with hx | hx
      · refine inv.traceQueue x hx y ?_
        rw [hq]
        simp only [List.map_cons]
        exact List.mem_cons_of_mem _ hy
      · simp only [List.map_cons, List.map_nil, List.mem_singleton] at hx
        subst hx
        exact hfr y hy
    · have := hnew y hy
      omega
  · -- queue depth window
    intro y0 hy0 y hy
    rw [List.map_append] at hy0 hy
    rw [List.mem_append] at hy
    cases hr : rest with
    | nil =>
      subst hr
      simp only [List.map_nil, List.nil_append] at hy0 hy
      have h1 := hnew y0 (List.mem_of_mem_head? hy0)
      rcases hy with hy | hy
      · exact absurd hy (List.not_mem_nil y)
      · have h2 := hnew y hy
        omega
    | cons r0 rtail =>
      subst hr
      simp only [List.map_cons, List.cons_append, List.head?_cons,
        Option.mem_def, Option.some.injEq] at hy0
      have hd0 : depth ≤ y0 := by
        rw [← hy0]
        exact hfr r0.2 (by simp)
      rcases hy with hy | hy
      · have := hwin y hy
        omega
      · have := hnew y hy
        omega
  · -- page counter
    show st.page_count + 1 = succCount fetchFn (st.trace ++ [(url, depth)])
    rw [succCount_append, inv.countEq]
    simp only [hfetch, if_true]

theorem crawlLoop_inv (maxPages maxDepth : Nat)
    (fetchFn : PyStr → Option PageData)
    (geminiFn : PyStr → List PyStr → Option PyStr) (fuel : Nat) :
    ∀ st st', CrawlInv maxPages fetchFn st →
      crawlLoop maxPages maxDepth fetchFn geminiFn fuel st = some st' →
      CrawlInv maxPages fetchFn st' := by
  induction fuel with
  | zero =>
    intro st st' _ h
    simp only [crawlLoop] at h
    exact Option.noConfusion h
  | succ fuel ih =>
    intro st st' inv h
    rw [crawlLoop] at h
    split at h
    · injection h with h2
      subst h2
      exact inv
    · next hg =>
      split at h
      · injection h with h2
        subst h2
        exact inv
      · next url depth rest hq =>
        split at h
        · exact ih _ _ (inv_dequeue _ fetchFn st url depth rest hq inv) h
        · next hvd =>
          have hvis : url ∉ st.trace.map Prod.fst := fun hv =>
            hvd (Or.inl hv)
          have hcnt : st.page_count < maxPages := by
            push_neg at hg
            exact hg.2.1
          split at h
          · next hfetch =>
            exact ih _ _
              (inv_fail _ fetchFn st url depth rest hq hvis hfetch inv) h
          · next page hfetch =>
            refine ih _ _ ?_ h
            have hsome : (fetchFn url).isSome = true := by
              rw [hfetch]
              rfl
            exact inv_succ _ fetchFn st url depth rest _ _ hq hvis hsome
              hcnt inv

theorem inv_init (maxPages : Nat) (fetchFn : PyStr → Option PageData)
    (s : PyStr) :
    CrawlInv maxPages fetchFn ⟨[], [], [(s, 0)], 0⟩ := by
  refine ⟨?_, ?_, ?_, ?_, ?_, rfl, Nat.zero_le _⟩
  · exact List.sorted_nil
  · simp only [List.map_cons, List.map_nil]
    exact List.pairwise_singleton _ _
  · intro x hx
    exact absurd hx (List.not_mem_nil x)
  · intro y0 hy0 y hy
    simp only [List.map_cons, List.map_nil, List.mem_singleton] at hy
    omega
  · exact List.nodup_nil

/-- Claim C7: the crawl traversal of crawl_until_complete is breadth-first
and deduplicated.  Whatever the page budget, depth cap, site graph
(fetchFn), oracle (geminiFn) and seed, when the loop returns a final
state, the pages were processed in non-decreasing depth order and no
canonical URL was processed more than once: the FIFO frontier consumption
yields a depth-sorted trace without repeated URLs. -/
theorem crawl_bfs (maxPages maxDepth fuel : Nat)
    (fetchFn : PyStr → Option PageData)
    (geminiFn : PyStr → List PyStr → Option PyStr) (start : PyStr)
    (st' : CrawlState)
    (h : crawl_until_complete maxPages maxDepth fetchFn geminiFn fuel start =
      .ok (some st')) :
    (st'.trace.map Prod.fst).Nodup ∧
      List.Sorted (· ≤ ·) (st'.trace.map Prod.snd) := by
  simp only [crawl_until_complete] at h
  cases hn : normalize_url start with
  | error e =>
    rw [hn] at h
    exact Except.noConfusion h
  | ok s =>
    rw [hn] at h
    injection h with h2
    have inv := crawlLoop_inv maxPages maxDepth fetchFn geminiFn fuel _ st'
      (inv_init maxPages fetchFn s) h2
    exact ⟨inv.traceNodup, inv.traceSorted⟩

/-- Witness for the C7 theorem on the concrete one-page site wFetch: the
crawl of "http://w" ends with the page processed once at depth zero, and
the theorem yields the deduplication and sortedness of that trace. -/
theorem crawl_bfs_witness :
    crawl_until_complete 5 3 wFetch wGemini 10 ("http://w".toList) =
      .ok (some ⟨[], [("http://w".toList, 0)], [], 1⟩) ∧
    (([("http://w".toList, 0)].map Prod.fst).Nodup ∧
      List.Sorted (· ≤ ·) ([("http://w".toList, 0)].map Prod.snd)) :=
  ⟨rfl, crawl_bfs 5 3 10 wFetch wGemini ("http://w".toList)
    ⟨[], [("http://w".toList, 0)], [], 1⟩ rfl⟩

/-- Claim C1, counterexample: a fetch-failed page does not count toward
the page budget.  On the three-page site cFetch with page budget 2, the
crawl processes three pages — the seed, the fetch-failed page and one
more — before stopping with page_count 2 and a nonempty queue
(BudgetExceeded): it does not end after exactly 2 processed pages when
fetch-failed pages are counted, because the source hits `continue` before
`page_count += 1` on a failed fetch. -/
theorem crawl_budget_claim_refuted :
    crawl_until_complete 2 3 cFetch cGemini 10 ("http://s".toList) =
      .ok (some ⟨[], [("http://s".toList, 0), ("http://s/f".toList, 1),
        ("http://s/a".toList, 1)], [("http://s/b".toList, 1)], 2⟩) ∧
    termState ⟨[], [("http://s".toList, 0), ("http://s/f".toList, 1),
        ("http://s/a".toList, 1)], [("http://s/b".toList, 1)], 2⟩ =
      TermState.BudgetExceeded ∧
    [("http://s".toList, 0), ("http://s/f".toList, 1),
        ("http://s/a".toList, 1)].length = 3 :=
  ⟨rfl, rfl, rfl⟩

/-- Claim C1, amended: fetch-failed pages do not count toward the page
budget.  In every terminating run of crawl_until_complete the page counter
equals the number of processed pages whose fetch succeeded (fetch-failed
pages appear in the trace but are not counted), and when the run ends in
the BudgetExceeded state exactly maxPages successfully fetched pages were
counted. -/
theorem crawl_budget (maxPages maxDepth fuel : Nat)
    (fetchFn : PyStr → Option PageData)
    (geminiFn : PyStr → List PyStr → Option PyStr) (start : PyStr)
    (st' : CrawlState)
    (h : crawl_until_complete maxPages maxDepth fetchFn geminiFn fuel start =
      .ok (some st')) :
    st'.page_count = succCount fetchFn st'.trace ∧
      (termState st' = TermState.BudgetExceeded →
        st'.page_count = maxPages) := by
  simp only [crawl_until_complete] at h
  cases hn : normalize_url start with
  | error e =>
    rw [hn] at h
    exact Except.noConfusion h
  | ok s =>
    rw [hn] at h
    injection h with h2
    have inv := crawlLoop_inv maxPages maxDepth fetchFn geminiFn fuel _ st'
      (inv_init maxPages fetchFn s) h2
    have hexit := crawlLoop_exit maxPages maxDepth fetchFn geminiFn fuel _
      st' h2
    refine ⟨inv.countEq, ?_⟩
    intro ht
    by_cases hc : is_output_complete st'.output = true
    · rw [termState, if_pos hc] at ht
      exact TermState.noConfusion ht
    · rw [termState, if_neg hc] at ht
      by_cases hqe : st'.queue = []
      · rw [if_pos hqe] at ht
        exact TermState.noConfusion ht
      · rcases hexit with h1 | h2 | h3
        · exact absurd h1 hqe
        · exact Nat.le_antisymm inv.countLe h2
        · exact absurd h3 hc

/-- Witness for the amended C1 theorem on the concrete run of cFetch with
budget 2: the theorem's count identity and budget equality hold of the
final state of that run. -/
theorem crawl_budget_witness :
    crawl_until_complete 2 3 cFetch cGemini 10 ("http://s".toList) =
      .ok (some ⟨[], [("http://s".toList, 0), ("http://s/f".toList, 1),
        ("http://s/a".toList, 1)], [("http://s/b".toList, 1)], 2⟩) ∧
    ((⟨[], [("http://s".toList, 0), ("http://s/f".toList, 1),
        ("http://s/a".toList, 1)], [("http://s/b".toList, 1)], 2⟩ :
          CrawlState).page_count =
        succCount cFetch [("http://s".toList, 0), ("http://s/f".toList, 1),
          ("http://s/a".toList, 1)] ∧
      (termState ⟨[], [("http://s".toList, 0), ("http://s/f".toList, 1),
          ("http://s/a".toList, 1)], [("http://s/b".toList, 1)], 2⟩ =
        TermState.BudgetExceeded →
        (⟨[], [("http://s".toList, 0), ("http://s/f".toList, 1),
          ("http://s/a".toList, 1)], [("http://s/b".toList, 1)], 2⟩ :
            CrawlState).page_count = 2)) :=
  ⟨rfl, crawl_budget 2 3 10 cFetch cGemini ("http://s".toList)
    ⟨[], [("http://s".toList, 0), ("http://s/f".toList, 1),
      ("http://s/a".toList, 1)], [("http://s/b".toList, 1)], 2⟩ rfl⟩
